import Mathlib

/-! # Record sets of `package dataset` (`recordset.go`)

A shallow embedding of `TRecordSet` and of its methods, followed by the
properties of the record that have been settled against that embedding.

Conventions of the embedding.

* A Go `interface{}` value is a `Value`; only `AsStruct` inspects it, for its
  dynamic type.
* A Go `map[string]T` is an association list `GoMap T` with pairwise distinct
  keys; the order of the list is the order in which `range` visits the entries.
* A Go `int` is an `Int`, a Go slice is a `List`, a pointer or map that may be
  nil is an `Option`.
* Functions that are not among the sources (the `utils` conversions,
  `newFieldSet`) are parameters.
* A method that can stop with a run-time panic returns an `Option`:
  `none` is the panic, `some x` the normal return.
* Methods that assign to the receiver return the new record next to their
  result; methods whose body contains no assignment to the receiver are
  functions of the record alone.
-/

namespace Dataset

/-! ## Values, maps and slices -/

/-- The kinds of `reflect.Kind`. -/
inductive Kind where
  | Invalid | Bool | Int | Int8 | Int16 | Int32 | Int64
  | Uint | Uint8 | Uint16 | Uint32 | Uint64 | Uintptr
  | Float32 | Float64 | Complex64 | Complex128
  | Array | Chan | Func | Interface | Map | Ptr | Slice | String | Struct | RawPointer
  deriving DecidableEq, Repr

/-- A Go type, by what `AsStruct` and `reflect.Value.Set` ask of it: its identity
(`name`), its kind, whether it is a defined type, and the identity of its
underlying type. -/
structure GoType where
  name : String
  kind : Kind
  defined : Bool
  underlying : String
  deriving DecidableEq, Repr

namespace GoType

/-- A predeclared type: defined, and its own underlying type. -/
def basic (name : String) (kind : Kind) : GoType :=
  { name := name, kind := kind, defined := true, underlying := name }

/-- The type `bool`. -/
def bool : GoType := basic "bool" Kind.Bool
/-- The type `int`. -/
def int : GoType := basic "int" Kind.Int
/-- The type `int64`. -/
def int64 : GoType := basic "int64" Kind.Int64
/-- The type `string`. -/
def string : GoType := basic "string" Kind.String
/-- The type `float32`. -/
def float32 : GoType := basic "float32" Kind.Float32
/-- The type `float64`. -/
def float64 : GoType := basic "float64" Kind.Float64
/-- The type `time.Time`, a defined struct type. -/
def time : GoType :=
  { name := "time.Time", kind := Kind.Struct, defined := true, underlying := "struct time.Time" }
/-- What stands for the missing type of the nil interface. -/
def untyped : GoType :=
  { name := "nil", kind := Kind.Invalid, defined := false, underlying := "nil" }

/-- The rule of `reflect.Value.Set` for a value of type `V` stored into a member
of type `T` (`directlyAssignable`): the types are identical, or they have the same
kind and identical underlying types and at least one of them is not defined. The
dynamic type of a value is never an interface type. The additional rule for a
bidirectional channel value stored into a directional channel member is left out:
a `GoType` does not carry the direction of a channel. -/
def assignableTo (V T : GoType) : Bool :=
  V == T || (!(T.defined && V.defined) && T.kind == V.kind && T.underlying == V.underlying)

/-- The test `T.ConvertibleTo(reflect.TypeOf(time.Time{}))` on a type of struct
kind: identical underlying types. -/
def convertibleToTime (T : GoType) : Bool := T.underlying == time.underlying

end GoType

/-- A dynamically typed Go value (`interface{}`). `nil` is the absent value;
`other t tag` is a value of type `t` whose content the record never looks into
(a `float32`, a `float64`, a `time.Time`, a slice, ...). -/
inductive Value where
  | nil
  | bool (b : Bool)
  | int (i : Int)
  | int64 (i : Int)
  | str (s : String)
  | other (t : GoType) (tag : Nat)
  deriving DecidableEq, Repr

/-- The dynamic type `reflect.TypeOf(v)`. -/
def Value.typeOf : Value → GoType
  | Value.nil => GoType.untyped
  | Value.bool _ => GoType.bool
  | Value.int _ => GoType.int
  | Value.int64 _ => GoType.int64
  | Value.str _ => GoType.string
  | Value.other t _ => t

/-- A Go map with string keys, as the list of its entries in iteration order. -/
abbrev GoMap (α : Type) := List (String × α)

namespace GoMap

variable {α : Type}

/-- The keys of a map, in iteration order. -/
def keys (m : GoMap α) : List String := m.map Prod.fst

/-- A list of entries is a Go map when no key occurs twice. -/
def WF (m : GoMap α) : Prop := m.keys.Nodup

instance (m : GoMap α) : Decidable m.WF := by
  unfold WF; infer_instance

/-- The two-result read `v, ok := m[k]`. -/
def get? (m : GoMap α) (k : String) : Option α := List.lookup k m

/-- The assignment `m[k] = v`. -/
def set (m : GoMap α) (k : String) (v : α) : GoMap α :=
  (k, v) :: m.filter (fun e => e.1 != k)

end GoMap

/-- The slice read `xs[i]`; `none` is the panic "index out of range". -/
def sliceGet {α : Type} (xs : List α) (i : Int) : Option α :=
  if 0 ≤ i then xs[i.toNat]? else none

/-- The slice write `xs[i] = v`; `none` is the panic "index out of range". -/
def sliceSet {α : Type} (xs : List α) (i : Int) (v : α) : Option (List α) :=
  if 0 ≤ i ∧ i.toNat < xs.length then some (xs.set i.toNat v) else none

/-! ## The record -/

/-- Field metadata handle: the members of `TFieldSet` the record touches. -/
structure TFieldSet where
  Name : String
  IsValid : Bool
  deriving DecidableEq, Repr

/-- The owning collection, seen through its only method the record calls:
`Fields()`, a map from field name to a (possibly nil) metadata pointer. -/
structure IDataSet where
  Fields : GoMap (Option TFieldSet)
  deriving DecidableEq, Repr

/-- The struct `TRecordSet`. -/
structure TRecordSet where
  dataSet : Option IDataSet
  fields : List String
  values : List Value
  ClassicValues : List Value
  nameIndex : GoMap Int
  length : Int
  isEmpty : Bool
  deriving DecidableEq, Repr

/-- One iteration of the loop `for field, val := range record[0]` of
`NewRecordSet`, on the pair of the record under construction and `idx`. -/
def NewRecordSet.body (st : TRecordSet × Int) (e : String × Value) : TRecordSet × Int :=
  let recset := st.1
  let idx : Int := recset.fields.length
  ({ recset with
      nameIndex := recset.nameIndex.set e.1 idx
      fields := recset.fields ++ [e.1]
      values := recset.values ++ [e.2] }, idx)

/-- The literal `&TRecordSet{...}` the constructor starts from: empty slices,
an empty map, and the zero value for the members it does not name. -/
def NewRecordSet.init : TRecordSet :=
  { dataSet := none, fields := [], values := [], ClassicValues := [],
    nameIndex := [], length := 0, isEmpty := false }

/-- The constructor `NewRecordSet(record ...map[string]interface{})`. -/
def NewRecordSet (record : List (GoMap Value)) : TRecordSet :=
  let recset : TRecordSet := NewRecordSet.init
  match record with
  | [] => { recset with isEmpty := true }
  | m :: _ =>
    let st := m.foldl NewRecordSet.body (recset, 0)
    { st.1 with length := st.2 + 1, isEmpty := st.2 == 0 }

namespace TRecordSet

/-- The method `FieldIndex`: a missing key reads as the zero value. -/
def FieldIndex (self : TRecordSet) (name : String) : Int :=
  (self.nameIndex.get? name).getD 0

/-- The method `Fields`. -/
def Fields (self : TRecordSet) : List String := self.fields

/-- The method `Length`. -/
def Length (self : TRecordSet) : Int := self.length

/-- The method `IsEmpty`. -/
def IsEmpty (self : TRecordSet) : Bool := self.isEmpty

/-- The method `SetDataset`. -/
def SetDataset (self : TRecordSet) (ds : Option IDataSet) : TRecordSet :=
  { self with dataSet := ds }

/-- The method `Get`; `some Value.nil` is the returned `nil`, `none` a panic. -/
def Get (self : TRecordSet) (index : Int) (_classic : Bool) : Option Value :=
  if index ≥ self.length then some Value.nil
  else sliceGet self.values index

/-- The method `Set`: the record after the call and the returned flag. -/
def Set (self : TRecordSet) (index : Int) (value : Value) (classic : Bool) :
    Option (TRecordSet × Bool) :=
  if index ≥ self.length then some (self, false)
  else if classic then
    match sliceSet self.ClassicValues index value with
    | none => none
    | some cv => some ({ self with ClassicValues := cv }, true)
  else
    match sliceSet self.values index value with
    | none => none
    | some vs => some ({ self with values := vs }, true)

/-- The method `GetByName`. -/
def GetByName (self : TRecordSet) (name : String) (classic : Bool) : Option Value :=
  match self.nameIndex.get? name with
  | some index => self.Get index classic
  | none => some (Value.str "")

/-- The method `SetByName`: the handle, the record and the returned flag after
the call. A nil handle (`none`) panics at `fs.IsValid = true`. -/
def SetByName (self : TRecordSet) (fs : Option TFieldSet) (name : String) (value : Value)
    (classic : Bool) : Option (TFieldSet × TRecordSet × Bool) :=
  match fs with
  | none => none
  | some h =>
    let h := { h with IsValid := true }
    match self.nameIndex.get? name with
    | some index =>
      match self.Set index value classic with
      | none => none
      | some (r, b) => some (h, r, b)
    | none =>
      let r := { self with nameIndex := self.nameIndex.set name self.values.length }
      let r := { r with fields := r.fields ++ [name] }
      let r := if classic then { r with ClassicValues := r.ClassicValues ++ [value] }
               else { r with values := r.values ++ [value] }
      let r := { r with length := r.values.length }
      some (h, r, true)

/-- The loop `for idx, field := range self.fields { m[field] = conv(self.values[idx]) }`
shared by the map exports, started at position `idx` with the map `m`. -/
def rangeFields {β : Type} (conv : Value → β) (values : List Value) :
    Nat → List String → GoMap β → Option (GoMap β)
  | _, [], m => some m
  | idx, field :: rest, m =>
    match sliceGet values idx with
    | none => none
    | some v => rangeFields conv values (idx + 1) rest (m.set field (conv v))

/-- The method `AsStrMap`; `Itf2Str` is the conversion of the utilities library. -/
def AsStrMap (Itf2Str : Value → String) (self : TRecordSet) : Option (GoMap String) :=
  rangeFields Itf2Str self.values 0 self.fields []

/-- The method `AsItfMap`. -/
def AsItfMap (self : TRecordSet) : Option (GoMap Value) :=
  rangeFields id self.values 0 self.fields []

/-- The method `MergeToStrMap`. The argument `none` is the nil map, which Go lets
the caller pass and which panics at the first assignment; the inner option of the
result is the returned map, nil or not. -/
def MergeToStrMap (Itf2Str : Value → String) (self : TRecordSet)
    (target : Option (GoMap String)) : Option (Option (GoMap String)) :=
  match target with
  | some t => (rangeFields Itf2Str self.values 0 self.fields t).map some
  | none => if self.fields = [] then some none else none

end TRecordSet

/-! ## Field metadata -/

/-- A `*TFieldSet` as the record hands it out: the metadata and the record its
member `RecSet` points to. -/
structure FieldHandle where
  field : TFieldSet
  RecSet : TRecordSet
  deriving DecidableEq, Repr

/-- Modelled from the spec: the constructor `newFieldSet(name, recset)` of the field
metadata type is not among the sources. The record "constructs a transient,
unvalidated instance" carrying the name and the back-reference. -/
def newFieldSet (name : String) (recset : TRecordSet) : FieldHandle :=
  { field := { Name := name, IsValid := false }, RecSet := recset }

/-- The method `FiledByIndex`, over the constructor `newFieldSet` it calls.
`some none` is the returned nil pointer, `none` a panic (an index outside `fields`,
or the assignment `res.RecSet = self` through a nil pointer). -/
def TRecordSet.FiledByIndex (newFieldSet : String → TRecordSet → FieldHandle)
    (self : TRecordSet) (index : Int) : Option (Option FieldHandle) :=
  if index ≥ self.length then some none
  else
    match sliceGet self.fields index with
    | none => none
    | some field =>
      match self.dataSet with
      | some ds =>
        if (ds.Fields.length : Int) ≠ self.length then some none
        else
          match ds.Fields.get? field with
          | some (some res) => some (some { field := res, RecSet := self })
          | _ => none
      | none =>
        let res := newFieldSet field self
        some (some { res with field := { res.field with IsValid := decide (field ≠ "") } })

/-! ## Projection onto a struct -/

/-- The conversions of the utilities library that `AsStruct` calls. A `float32`,
a `float64` and a `time.Time` are returned by their content tag. -/
structure Utils where
  TitleCasedName : String → String
  Itf2Bool : Value → Bool
  Itf2Str : Value → String
  Itf2Int64 : Value → Int
  Itf2Float32 : Value → Nat
  Itf2Float : Value → Nat
  Itf2Time : Value → Nat

/-- A member of the target struct as `reflect` presents it: its declared type,
whether it can be set (exported, and reached through a pointer), its value. -/
structure Member where
  typ : GoType
  CanSet : Bool
  value : Value
  deriving DecidableEq, Repr

/-- A target struct that embeds no struct: its members by name, as `FieldByName`
finds them. Every member is storage of its own. (`ETarget` is the target with
embedded structs.) -/
abbrev Target := GoMap Member

/-- The `switch lFieldValue.Type().Kind()` of `AsStruct`, entered when the kinds of
member and value differ: the value to assign, or `none` for the `default` branch
(`continue`). -/
def AsStruct.coerce (u : Utils) (T : GoType) (v : Value) : Option Value :=
  match T.kind with
  | Kind.Bool => some (Value.bool (u.Itf2Bool v))
  | Kind.String => some (Value.str (u.Itf2Str v))
  | Kind.Int | Kind.Int8 | Kind.Int16 | Kind.Int32 | Kind.Int64 =>
    some (Value.int64 (u.Itf2Int64 v))
  | Kind.Uint | Kind.Uint8 | Kind.Uint16 | Kind.Uint32 | Kind.Uint64 =>
    some (Value.int64 (u.Itf2Int64 v))
  | Kind.Float32 => some (Value.other GoType.float32 (u.Itf2Float32 v))
  | Kind.Float64 => some (Value.other GoType.float64 (u.Itf2Float v))
  | Kind.Struct =>
    if T.convertibleToTime then some (Value.other GoType.time (u.Itf2Time v)) else some v
  | _ => none

/-- The loop `for idx, name := range self.fields` of `AsStruct` over the selected
lane, from position `idx`. The result is the target as the loop leaves it and
whether the loop ran to its end (`true`) or panicked (`false`): at a lane index out
of range, or in `lFieldValue.Set` on a value that is not assignable. -/
def AsStruct.loop (u : Utils) (lane : List Value) :
    Nat → List String → Target → Target × Bool
  | _, [], t => (t, true)
  | idx, name :: rest, t =>
    match t.get? (u.TitleCasedName name) with
    | none => AsStruct.loop u lane (idx + 1) rest t
    | some m =>
      if !m.CanSet then AsStruct.loop u lane (idx + 1) rest t
      else
        match sliceGet lane idx with
        | none => (t, false)
        | some v =>
          if v = Value.nil then AsStruct.loop u lane (idx + 1) rest t
          else
            match (if m.typ.kind ≠ v.typeOf.kind then AsStruct.coerce u m.typ v else some v) with
            | none => AsStruct.loop u lane (idx + 1) rest t
            | some w =>
              if w.typeOf.assignableTo m.typ then
                AsStruct.loop u lane (idx + 1) rest
                  (t.set (u.TitleCasedName name) { m with value := w })
              else (t, false)

/-- The lane `AsStruct` reads: `lClassic` is the first of the optional arguments,
false when there is none. -/
def TRecordSet.selectedLane (self : TRecordSet) (classic : List Bool) : List Value :=
  let lClassic := match classic with
    | [] => false
    | c :: _ => c
  if lClassic then self.ClassicValues else self.values

/-- The method `AsStruct(target, classic...)` on a target struct. The result is the
target after the call and whether the call returned (`true`: with the nil error,
its only return statement) or panicked (`false`). -/
def TRecordSet.AsStruct (u : Utils) (self : TRecordSet) (target : Target)
    (classic : List Bool) : Target × Bool :=
  AsStruct.loop u (self.selectedLane classic) 0 self.fields target

/-! ## Targets with embedded structs -/

/-- What `reflect` reads off an embedded struct, whose value the record keeps
closed: for a struct type and a field name, the declared type of the field and
whether it is exported (`fieldType`); for a struct value, the value of a field
(`field`) and the struct value with a field replaced (`withField`). -/
structure Reflect where
  fieldType : GoType → String → Option (GoType × Bool)
  field : Value → String → Value
  withField : Value → String → Value → Value

/-- A member of a target struct that may embed structs: its declared type, whether
its name is exported, whether it is an embedded field, its value. -/
structure EMember where
  typ : GoType
  exported : Bool
  embedded : Bool
  value : Value
  deriving DecidableEq, Repr

/-- A target struct that may embed structs (by value, one level of promotion):
whether it is addressable (reached through a pointer) and its own members by name.
The fields of an embedded member are part of the value of that member. -/
structure ETarget where
  addressable : Bool
  members : GoMap EMember
  deriving DecidableEq, Repr

/-- What `FieldByName` finds: a member of the struct itself, or a field promoted
from the embedded member `owner`. -/
inductive FieldRef where
  | direct (name : String) (m : EMember)
  | promoted (owner : String) (e : EMember) (name : String) (typ : GoType) (exported : Bool)
  deriving DecidableEq, Repr

/-- The declared type of the field found. -/
def FieldRef.typ : FieldRef → GoType
  | FieldRef.direct _ m => m.typ
  | FieldRef.promoted _ _ _ typ _ => typ

/-- Whether the name of the field found is exported. -/
def FieldRef.exported : FieldRef → Bool
  | FieldRef.direct _ m => m.exported
  | FieldRef.promoted _ _ _ _ exported => exported

/-- The value of the field found. -/
def FieldRef.value (ρ : Reflect) : FieldRef → Value
  | FieldRef.direct _ m => m.value
  | FieldRef.promoted _ e name _ _ => ρ.field e.value name

/-- The call `lStruct.FieldByName(name)`: a member of that name, or else the field
of that name of the one embedded member that has it; nothing when no embedded
member or more than one has it. -/
def ETarget.FieldByName (ρ : Reflect) (t : ETarget) (name : String) : Option FieldRef :=
  match t.members.get? name with
  | some m => some (FieldRef.direct name m)
  | none =>
    match t.members.filter (fun p => p.2.embedded && (ρ.fieldType p.2.typ name).isSome) with
    | [(owner, e)] =>
      match ρ.fieldType e.typ name with
      | some (typ, exported) => some (FieldRef.promoted owner e name typ exported)
      | none => none
    | _ => none

/-- The value a member or promoted field of the target holds. -/
def ETarget.read (ρ : Reflect) (t : ETarget) (name : String) : Option Value :=
  (t.FieldByName ρ name).map (FieldRef.value ρ)

/-- The call `lFieldValue.Set(lVal)` on the field found: a member receives the
value; a promoted field changes the value of the embedded member that holds it. -/
def ETarget.assign (ρ : Reflect) (t : ETarget) (ref : FieldRef) (w : Value) : ETarget :=
  match ref with
  | FieldRef.direct name m => { t with members := t.members.set name { m with value := w } }
  | FieldRef.promoted owner e name _ _ =>
    { t with members := t.members.set owner { e with value := ρ.withField e.value name w } }

/-- One iteration of the loop of `AsStruct` on a target with embedded structs, for
the field `name` at position `idx`: the target for the next iteration, or `none`
when the iteration panics. -/
def AsStruct.bodyE (ρ : Reflect) (u : Utils) (lane : List Value) (idx : Nat)
    (name : String) (t : ETarget) : Option ETarget :=
  match t.FieldByName ρ (u.TitleCasedName name) with
  | none => some t
  | some ref =>
    if !(t.addressable && ref.exported) then some t
    else
      match sliceGet lane idx with
      | none => none
      | some v =>
        if v = Value.nil then some t
        else
          match (if ref.typ.kind ≠ v.typeOf.kind then AsStruct.coerce u ref.typ v
                 else some v) with
          | none => some t
          | some w => if w.typeOf.assignableTo ref.typ then some (t.assign ρ ref w) else none

/-- The loop of `AsStruct` on a target with embedded structs, from position `idx`:
the target as the loop leaves it and whether it ran to its end. -/
def AsStruct.loopE (ρ : Reflect) (u : Utils) (lane : List Value) :
    Nat → List String → ETarget → ETarget × Bool
  | _, [], t => (t, true)
  | idx, name :: rest, t =>
    match AsStruct.bodyE ρ u lane idx name t with
    | none => (t, false)
    | some t' => AsStruct.loopE ρ u lane (idx + 1) rest t'

/-- The method `AsStruct(target, classic...)` on a target with embedded structs. -/
def TRecordSet.AsStructE (ρ : Reflect) (u : Utils) (self : TRecordSet) (target : ETarget)
    (classic : List Bool) : ETarget × Bool :=
  AsStruct.loopE ρ u (self.selectedLane classic) 0 self.fields target

/-- A target without embedded structs, reached through a pointer, as a target that
may embed structs. -/
def Target.embedless (t : Target) : ETarget :=
  { addressable := true
    members := t.map (fun p => (p.1, { typ := p.2.typ, exported := p.2.CanSet,
                                        embedded := false, value := p.2.value })) }

/-- The struct type `type Inner struct { Age int }` of the examples. -/
def innerType : GoType :=
  { name := "main.Inner", kind := Kind.Struct, defined := true, underlying := "struct{Age int}" }

/-- The struct type `Inner` under `reflect`, the value `Inner{Age: n}` being
`Value.other innerType n`. -/
def sampleReflect : Reflect :=
  { fieldType := fun T name =>
      if T = innerType ∧ name = "Age" then some (GoType.int, true) else none
    field := fun v _ =>
      match v with
      | Value.other _ n => Value.int n
      | _ => Value.nil
    withField := fun v _ w =>
      match v, w with
      | Value.other T _, Value.int i => Value.other T i.toNat
      | _, _ => v }

/-- The target `struct { Inner; Age int; Name string }` with `Inner.Age == 3`,
`Age == 7` and an empty `Name`, reached through a pointer. -/
def sampleLayered : ETarget :=
  { addressable := true
    members := [("Inner", { typ := innerType, exported := true, embedded := true,
                            value := Value.other innerType 3 }),
                ("Age", { typ := GoType.int, exported := true, embedded := false,
                          value := Value.int 7 }),
                ("Name", { typ := GoType.string, exported := true, embedded := false,
                           value := Value.str "" })] }

/-- The target `struct { Inner }` with `Inner.Age == 7`, reached through a pointer. -/
def sampleEmbedded : ETarget :=
  { addressable := true
    members := [("Inner", { typ := innerType, exported := true, embedded := true,
                            value := Value.other innerType 7 })] }

/-! ## Sequences of mutating calls -/

/-- A mutating call on a record. -/
inductive Op where
  | Set (index : Int) (value : Value) (classic : Bool)
  | SetByName (fs : Option TFieldSet) (name : String) (value : Value) (classic : Bool)
  deriving DecidableEq, Repr

/-- The record after one call; `none` when the call panics. -/
def Op.apply (r : TRecordSet) : Op → Option TRecordSet
  | Op.Set index value classic => (r.Set index value classic).map (fun p => p.1)
  | Op.SetByName fs name value classic =>
      (r.SetByName fs name value classic).map (fun p => p.2.1)

/-- The record after a sequence of calls, each of which returns normally. -/
def runOps (r : TRecordSet) : List Op → Option TRecordSet
  | [] => some r
  | op :: ops =>
    match op.apply r with
    | none => none
    | some r' => runOps r' ops

/-- The arguments of `NewRecordSet` that are not led by an empty mapping. -/
def Seeded (record : List (GoMap Value)) : Prop :=
  ∀ m, record.head? = some m → m ≠ []

/-- The relations between the members of a record that every constructor call
and every mutating call establish. -/
structure Inv (r : TRecordSet) : Prop where
  lanes : r.fields.length = r.values.length + r.ClassicValues.length
  names : ∀ k, k ∈ r.fields ↔ (r.nameIndex.get? k).isSome
  index : ∀ k i, r.nameIndex.get? k = some i → 0 ≤ i ∧ i < r.fields.length
  upper : ∀ k i, r.nameIndex.get? k = some i → i ≤ r.values.length

/-- The member `length` agrees with the primary lane. -/
def LenOk (r : TRecordSet) : Prop := r.length = r.values.length

/-- A call that registers a new name through the classic lane. -/
def Op.registersClassic (r : TRecordSet) : Op → Bool
  | Op.Set _ _ _ => false
  | Op.SetByName _ name _ classic => classic && (r.nameIndex.get? name).isNone

/-- The record `{a: 3, b: 2}` with both fields in the primary lane. -/
def sampleRecord : TRecordSet :=
  { dataSet := none, fields := ["a", "b"], values := [Value.int 3, Value.int 2],
    ClassicValues := [], nameIndex := [("b", 1), ("a", 0)], length := 2, isEmpty := true }

/-- The member `length` agrees with the primary lane as soon as a field is
registered. -/
def WeakLenOk (r : TRecordSet) : Prop := r.fields ≠ [] → LenOk r

/-- The name-to-index mapping follows the field list: no name occurs twice and
the name at every position maps to that position. -/
structure Lockstep (r : TRecordSet) : Prop where
  classic : r.ClassicValues = []
  nodup : r.fields.Nodup
  position : ∀ i, i < r.fields.length → r.nameIndex.get? (r.fields.getD i "") = some (i : Int)

/-- A call `SetByName(fs, name, value, false)` with a handle that is not nil. -/
def Op.isPrimarySetByName : Op → Bool
  | Op.Set _ _ _ => false
  | Op.SetByName fs _ _ classic => fs.isSome && !classic

/-- The arguments `NewRecordSet` can receive: the leading mapping has distinct keys. -/
def WFArgs (record : List (GoMap Value)) : Prop :=
  ∀ m, record.head? = some m → m.WF

/-- Conversions for the examples: `age`, `name` and `inner` title-cased, every
value converted to a fixed result. -/
def sampleUtils : Utils :=
  { TitleCasedName := fun s =>
      if s = "age" then "Age" else if s = "name" then "Name"
      else if s = "inner" then "Inner" else s
    Itf2Bool := fun _ => false
    Itf2Str := fun _ => ""
    Itf2Int64 := fun _ => 0
    Itf2Float32 := fun _ => 0
    Itf2Float := fun _ => 0
    Itf2Time := fun _ => 0 }

/-! ## Lemmas on maps and slices -/

namespace GoMap
variable {α : Type}

theorem get?_nil (k : String) : get? ([] : GoMap α) k = none := rfl

theorem get?_cons (e : String × α) (m : GoMap α) (k : String) :
    get? (e :: m) k = if k = e.1 then some e.2 else get? m k := by
  obtain ⟨a, b⟩ := e
  by_cases h : k = a
  · subst h; simp [get?, List.lookup]
  · have : (k == a) = false := by simpa using h
    simp [get?, List.lookup, this, h]

theorem get?_filter_ne (m : GoMap α) (k k' : String) (h : k' ≠ k) :
    get? (m.filter (fun e => e.1 != k)) k' = get? m k' := by
  induction m with
  | nil => rfl
  | cons e m ih =>
    by_cases he : e.1 = k
    · rw [List.filter_cons_of_neg (by simp [he]), get?_cons, ih]
      have : k' ≠ e.1 := by rw [he]; exact h
      simp [this]
    · rw [List.filter_cons_of_pos (by simpa using he), get?_cons, get?_cons, ih]

theorem get?_set (m : GoMap α) (k : String) (v : α) (k' : String) :
    get? (m.set k v) k' = if k' = k then some v else get? m k' := by
  unfold set
  rw [get?_cons]
  by_cases h : k' = k
  · simp [h]
  · simp [h, get?_filter_ne m k k' h]

theorem get?_isSome_iff (m : GoMap α) (k : String) :
    (get? m k).isSome ↔ k ∈ m.keys := by
  induction m with
  | nil => simp [get?_nil, keys]
  | cons e m ih =>
    rw [get?_cons]
    by_cases h : k = e.1
    · simp [h, keys]
    · simp only [h, if_false, ih, keys, List.map_cons, List.mem_cons, false_or]

theorem get?_eq_none_iff (m : GoMap α) (k : String) :
    get? m k = none ↔ k ∉ m.keys := by
  rw [← get?_isSome_iff]; cases get? m k <;> simp

theorem get?_of_mem (m : GoMap α) (hm : m.WF) (k : String) (v : α) (h : (k, v) ∈ m) :
    get? m k = some v := by
  induction m with
  | nil => cases h
  | cons e m ih =>
    have hnd : e.1 ∉ keys m ∧ (keys m).Nodup := by
      simpa [WF, keys] using hm
    rw [get?_cons]
    rcases List.mem_cons.1 h with h | h
    · simp [← h]
    · have hk : k ∈ keys m := List.mem_map.2 ⟨(k, v), h, rfl⟩
      have : k ≠ e.1 := fun hc => hnd.1 (hc ▸ hk)
      simp [this, ih hnd.2 h]

end GoMap

open GoMap

/-! ## The constructor loop -/

theorem NewRecordSet.foldl_body (m : GoMap Value) (r : TRecordSet) (i : Int) :
    (m.foldl NewRecordSet.body (r, i)).1.fields = r.fields ++ m.keys ∧
    (m.foldl NewRecordSet.body (r, i)).1.values = r.values ++ m.map Prod.snd ∧
    (m.foldl NewRecordSet.body (r, i)).1.ClassicValues = r.ClassicValues ∧
    (m.foldl NewRecordSet.body (r, i)).1.dataSet = r.dataSet ∧
    (m.foldl NewRecordSet.body (r, i)).2 =
      (if m = [] then i else (r.fields.length : Int) + m.length - 1) := by
  induction m generalizing r i with
  | nil => simp [GoMap.keys]
  | cons e m ih =>
    rw [List.foldl_cons]
    obtain ⟨h1, h2, h3, h4, h5⟩ := ih (NewRecordSet.body (r, i) e).1 (NewRecordSet.body (r, i) e).2
    have hb : NewRecordSet.body (r, i) e =
        ((NewRecordSet.body (r, i) e).1, (NewRecordSet.body (r, i) e).2) := rfl
    rw [← hb] at h1 h2 h3 h4 h5
    refine ⟨?_, ?_, ?_, ?_, ?_⟩
    · rw [h1]; simp [NewRecordSet.body, GoMap.keys]
    · rw [h2]; simp [NewRecordSet.body]
    · rw [h3]; simp [NewRecordSet.body]
    · rw [h4]; simp [NewRecordSet.body]
    · rw [h5]
      by_cases hm : m = []
      · subst hm; simp [NewRecordSet.body]
      · simp [hm, NewRecordSet.body]; ring

theorem NewRecordSet.foldl_body_nameIndex (m : GoMap Value) (r : TRecordSet) (i : Int)
    (k : String) :
    (k ∉ m.keys →
      (m.foldl NewRecordSet.body (r, i)).1.nameIndex.get? k = r.nameIndex.get? k) ∧
    (m.WF → k ∈ m.keys →
      (m.foldl NewRecordSet.body (r, i)).1.nameIndex.get? k =
        some ((r.fields.length : Int) + (m.keys.indexOf k : Nat))) ∧
    (∀ j, (m.foldl NewRecordSet.body (r, i)).1.nameIndex.get? k = some j →
      r.nameIndex.get? k = some j ∨
        (k ∈ m.keys ∧ (r.fields.length : Int) ≤ j ∧ j < r.fields.length + m.length)) := by
  induction m generalizing r i with
  | nil => simp [GoMap.keys]
  | cons e m ih =>
    rw [List.foldl_cons]
    obtain ⟨h1, h2, h3⟩ := ih (NewRecordSet.body (r, i) e).1 (NewRecordSet.body (r, i) e).2
    have hb : NewRecordSet.body (r, i) e =
        ((NewRecordSet.body (r, i) e).1, (NewRecordSet.body (r, i) e).2) := rfl
    rw [← hb] at h1 h2 h3
    have hni : (NewRecordSet.body (r, i) e).1.nameIndex.get? k =
        if k = e.1 then some (r.fields.length : Int) else r.nameIndex.get? k := by
      simp [NewRecordSet.body, GoMap.get?_set]
    have hfl : ((NewRecordSet.body (r, i) e).1.fields.length : Int) = r.fields.length + 1 := by
      simp [NewRecordSet.body]
    refine ⟨?_, ?_, ?_⟩
    · intro hk
      have hk' : k ≠ e.1 ∧ k ∉ keys m := by simpa [GoMap.keys] using hk
      rw [h1 hk'.2, hni, if_neg hk'.1]
    · intro hwf hk
      have hnd : e.1 ∉ keys m ∧ (keys m).Nodup := by simpa [WF, GoMap.keys] using hwf
      by_cases hke : k = e.1
      · subst hke
        rw [h1 hnd.1, hni, if_pos rfl]
        simp [GoMap.keys]
      · have hk' : k ∈ keys m := by
          have : k = e.1 ∨ k ∈ keys m := by simpa [GoMap.keys] using hk
          exact this.resolve_left hke
        rw [h2 hnd.2 hk', hfl]
        have : (keys (e :: m)).indexOf k = (keys m).indexOf k + 1 := by
          show List.indexOf k (e.1 :: keys m) = _
          rw [List.indexOf_cons_ne _ (Ne.symm hke)]
        rw [this]; push_cast; congr 1; ring
    · intro j hj
      rcases h3 j hj with h | ⟨hk, hlo, hhi⟩
      · rw [hni] at h
        by_cases hke : k = e.1
        · rw [if_pos hke] at h
          right
          refine ⟨by simp [GoMap.keys, hke], ?_, ?_⟩
          · simp at h; omega
          · simp at h; simp; omega
        · rw [if_neg hke] at h; exact Or.inl h
      · right
        refine ⟨by simp [GoMap.keys] at hk ⊢; exact Or.inr hk, ?_, ?_⟩
        · omega
        · simp; omega

/-! ## Preservation of the record relations -/

theorem sliceSet_length {α : Type} (xs ys : List α) (i : Int) (v : α)
    (h : sliceSet xs i v = some ys) : ys.length = xs.length := by
  unfold sliceSet at h
  split at h
  · simp at h; subst h; simp
  · cases h

theorem TRecordSet.Set_frame (r r' : TRecordSet) (i : Int) (v : Value) (c b : Bool)
    (h : r.Set i v c = some (r', b)) :
    r'.fields = r.fields ∧ r'.nameIndex = r.nameIndex ∧ r'.length = r.length ∧
    r'.values.length = r.values.length ∧
    r'.ClassicValues.length = r.ClassicValues.length ∧
    r'.dataSet = r.dataSet ∧ r'.isEmpty = r.isEmpty := by
  unfold TRecordSet.Set at h
  split at h
  · simp at h; obtain ⟨h1, _⟩ := h; subst h1; simp
  · split at h
    · split at h
      · cases h
      · rename_i cv hcv
        simp at h; obtain ⟨h1, _⟩ := h; subst h1
        simp [sliceSet_length _ _ _ _ hcv]
    · split at h
      · cases h
      · rename_i vs hvs
        simp at h; obtain ⟨h1, _⟩ := h; subst h1
        simp [sliceSet_length _ _ _ _ hvs]

theorem TRecordSet.Set_inv (r r' : TRecordSet) (i : Int) (v : Value) (c b : Bool)
    (h : r.Set i v c = some (r', b)) :
    (Inv r → Inv r') ∧ (LenOk r → LenOk r') := by
  obtain ⟨h1, h2, h3, h4, h5, _, _⟩ := TRecordSet.Set_frame r r' i v c b h
  constructor
  · intro hi
    exact ⟨by rw [h1, h4, h5]; exact hi.lanes, by rw [h1, h2]; exact hi.names,
      by rw [h1, h2]; exact hi.index, by rw [h2, h4]; exact hi.upper⟩
  · intro hl
    unfold LenOk at *
    rw [h3, h4]; exact hl

/-- The record `SetByName` leaves behind when the name is not registered yet. -/
theorem TRecordSet.SetByName_new (r : TRecordSet) (h : TFieldSet) (name : String)
    (v : Value) (c : Bool) (hnew : r.nameIndex.get? name = none) :
    r.SetByName (some h) name v c =
      some ({ h with IsValid := true },
        { r with
          nameIndex := r.nameIndex.set name r.values.length
          fields := r.fields ++ [name]
          values := if c then r.values else r.values ++ [v]
          ClassicValues := if c then r.ClassicValues ++ [v] else r.ClassicValues
          length := ((if c then r.values else r.values ++ [v]).length : Int) }, true) := by
  unfold TRecordSet.SetByName
  simp only [hnew]
  cases c <;> simp

theorem TRecordSet.SetByName_inv (r r' : TRecordSet) (fs : Option TFieldSet) (h' : TFieldSet)
    (name : String) (v : Value) (c b : Bool)
    (h : r.SetByName fs name v c = some (h', r', b)) :
    (Inv r → Inv r') ∧ (Inv r → LenOk r → LenOk r') := by
  cases fs with
  | none => simp [TRecordSet.SetByName] at h
  | some f =>
    cases hn : r.nameIndex.get? name with
    | some idx =>
      unfold TRecordSet.SetByName at h
      simp only [hn] at h
      split at h
      · cases h
      · rename_i r1 b1 hset
        simp at h
        obtain ⟨_, h2, _⟩ := h
        subst h2
        have := TRecordSet.Set_inv r r1 idx v c b1 hset
        exact ⟨this.1, fun _ => this.2⟩
    | none =>
      rw [TRecordSet.SetByName_new r f name v c hn] at h
      simp at h
      obtain ⟨_, h2, _⟩ := h
      subst h2
      constructor
      · intro hi
        refine ⟨?_, ?_, ?_, ?_⟩
        · have := hi.lanes
          cases c <;> simp <;> omega
        · intro k
          simp only [GoMap.get?_set, List.mem_append, List.mem_singleton]
          by_cases hk : k = name
          · simp [hk]
          · simp [hk, hi.names k]
        · intro k i
          simp only [GoMap.get?_set]
          by_cases hk : k = name
          · simp only [hk, if_true, Option.some.injEq, List.length_append, List.length_singleton]
            intro hi'
            have := hi.lanes
            subst hi'
            push_cast
            omega
          · simp only [hk, if_false, List.length_append, List.length_singleton]
            intro hi'
            have := hi.index k i hi'
            push_cast
            omega
        · intro k i
          simp only [GoMap.get?_set]
          by_cases hk : k = name
          · simp only [hk, if_true, Option.some.injEq]
            intro hi'
            subst hi'
            cases c <;> simp
          · simp only [hk, if_false]
            intro hi'
            have := hi.upper k i hi'
            cases c <;> simp <;> omega
      · intro _ _
        simp [LenOk]

theorem Op.apply_inv (r r' : TRecordSet) (op : Op) (h : op.apply r = some r') :
    (Inv r → Inv r') ∧ (Inv r → LenOk r → LenOk r') := by
  cases op with
  | Set i v c =>
    simp only [Op.apply, Option.map_eq_some'] at h
    obtain ⟨⟨r1, b⟩, h1, h2⟩ := h
    simp at h2; subst h2
    have := TRecordSet.Set_inv r r1 i v c b h1
    exact ⟨this.1, fun _ => this.2⟩
  | SetByName fs name v c =>
    simp only [Op.apply, Option.map_eq_some'] at h
    obtain ⟨⟨f1, r1, b⟩, h1, h2⟩ := h
    simp at h2; subst h2
    exact TRecordSet.SetByName_inv r r1 fs f1 name v c b h1

theorem runOps_inv (ops : List Op) (r r' : TRecordSet) (h : runOps r ops = some r') :
    (Inv r → Inv r') ∧ (Inv r → LenOk r → LenOk r') := by
  induction ops generalizing r with
  | nil => simp [runOps] at h; subst h; exact ⟨id, fun _ => id⟩
  | cons op ops ih =>
    unfold runOps at h
    split at h
    · cases h
    · rename_i r1 h1
      have ha := Op.apply_inv r r1 op h1
      have hb := ih r1 h
      exact ⟨fun hi => hb.1 (ha.1 hi), fun hi hl => hb.2 (ha.1 hi) (ha.2 hi hl)⟩

/-- The classic lane grows by one value exactly when a call registers a new name
with `classic = true`; no other call changes its size. -/
theorem Op.apply_ClassicValues_length (r r' : TRecordSet) (op : Op)
    (h : op.apply r = some r') :
    r'.ClassicValues.length =
      r.ClassicValues.length + (if op.registersClassic r then 1 else 0) := by
  cases op with
  | Set i v c =>
    simp only [Op.apply, Option.map_eq_some'] at h
    obtain ⟨⟨r1, b⟩, h1, h2⟩ := h
    simp at h2; subst h2
    simp [Op.registersClassic, (TRecordSet.Set_frame r r1 i v c b h1).2.2.2.2.1]
  | SetByName fs name v c =>
    simp only [Op.apply, Option.map_eq_some'] at h
    obtain ⟨⟨f1, r1, b⟩, h1, h2⟩ := h
    simp at h2; subst h2
    cases fs with
    | none => simp [TRecordSet.SetByName] at h1
    | some f =>
      cases hn : r.nameIndex.get? name with
      | some idx =>
        unfold TRecordSet.SetByName at h1
        simp only [hn] at h1
        split at h1
        · cases h1
        · rename_i r2 b2 hset
          simp at h1
          obtain ⟨_, h2, _⟩ := h1
          subst h2
          simp [Op.registersClassic, hn, (TRecordSet.Set_frame r r2 idx v c b2 hset).2.2.2.2.1]
      | none =>
        rw [TRecordSet.SetByName_new r f name v c hn] at h1
        simp at h1
        obtain ⟨_, h2, _⟩ := h1
        subst h2
        cases c <;> simp [Op.registersClassic, hn]

/-- Where a newly registered name lands: its index is the size of the primary lane
before the call, its position in `fields` that size plus the size of the classic
lane. -/
theorem TRecordSet.SetByName_new_position (r : TRecordSet) (name : String)
    (hinv : Inv r) (hnew : r.nameIndex.get? name = none) :
    ((r.nameIndex.set name r.values.length).get? name).getD 0 +
        (r.ClassicValues.length : Int) =
      (((r.fields ++ [name]).indexOf name : Nat) : Int) := by
  have hnot : name ∉ r.fields := by
    intro hmem
    have := (hinv.names name).1 hmem
    rw [hnew] at this
    simp at this
  rw [List.indexOf_append_of_not_mem hnot, List.indexOf_cons_self, GoMap.get?_set]
  have := hinv.lanes
  simp only [if_true, Option.getD_some]
  push_cast
  omega

/-! ## The record built by the constructor -/

theorem NewRecordSet.foldl_body_isSome (m : GoMap Value) (r : TRecordSet) (i : Int)
    (k : String) (hk : k ∈ m.keys) :
    ((m.foldl NewRecordSet.body (r, i)).1.nameIndex.get? k).isSome := by
  induction m generalizing r i with
  | nil => simp [GoMap.keys] at hk
  | cons e m ih =>
    rw [List.foldl_cons]
    by_cases hm : k ∈ keys m
    · exact ih _ _ hm
    · have hke : k = e.1 := by
        have : k = e.1 ∨ k ∈ keys m := by simpa [GoMap.keys] using hk
        exact this.resolve_right hm
      have h1 := (NewRecordSet.foldl_body_nameIndex m (NewRecordSet.body (r, i) e).1
        (NewRecordSet.body (r, i) e).2 k).1 hm
      have hb : NewRecordSet.body (r, i) e =
          ((NewRecordSet.body (r, i) e).1, (NewRecordSet.body (r, i) e).2) := rfl
      rw [← hb] at h1
      rw [h1]
      simp [NewRecordSet.body, GoMap.get?_set, hke]

theorem NewRecordSet_nil :
    (NewRecordSet []).fields = [] ∧ (NewRecordSet []).values = [] ∧
    (NewRecordSet []).ClassicValues = [] ∧ (NewRecordSet []).nameIndex = [] ∧
    (NewRecordSet []).length = 0 := ⟨rfl, rfl, rfl, rfl, rfl⟩

theorem NewRecordSet_cons_fields (m : GoMap Value) (rest : List (GoMap Value)) :
    (NewRecordSet (m :: rest)).fields = m.keys ∧
    (NewRecordSet (m :: rest)).values = m.map Prod.snd ∧
    (NewRecordSet (m :: rest)).ClassicValues = [] ∧
    (NewRecordSet (m :: rest)).length = (if m = [] then 1 else (m.length : Int)) := by
  have h := NewRecordSet.foldl_body m NewRecordSet.init 0
  obtain ⟨h1, h2, h3, _, h5⟩ := h
  have e1 : NewRecordSet.init.fields = [] := rfl
  have e2 : NewRecordSet.init.values = [] := rfl
  have e3 : NewRecordSet.init.ClassicValues = [] := rfl
  rw [e1] at h1 h5
  rw [e2] at h2
  rw [e3] at h3
  refine ⟨?_, ?_, ?_, ?_⟩
  · simpa [NewRecordSet] using h1
  · simpa [NewRecordSet] using h2
  · simpa [NewRecordSet] using h3
  · show (m.foldl NewRecordSet.body _).2 + 1 = _
    rw [h5]
    by_cases hm : m = []
    · simp [hm]
    · simp [hm]

theorem NewRecordSet_cons_nameIndex (m : GoMap Value) (rest : List (GoMap Value))
    (k : String) :
    (k ∉ m.keys → (NewRecordSet (m :: rest)).nameIndex.get? k = none) ∧
    (k ∈ m.keys → ((NewRecordSet (m :: rest)).nameIndex.get? k).isSome) ∧
    (m.WF → k ∈ m.keys →
      (NewRecordSet (m :: rest)).nameIndex.get? k = some ((m.keys.indexOf k : Nat) : Int)) ∧
    (∀ j, (NewRecordSet (m :: rest)).nameIndex.get? k = some j →
      k ∈ m.keys ∧ 0 ≤ j ∧ j < m.length) := by
  have h := NewRecordSet.foldl_body_nameIndex m NewRecordSet.init 0 k
  have hs := NewRecordSet.foldl_body_isSome m NewRecordSet.init 0 k
  obtain ⟨h1, h2, h3⟩ := h
  have e1 : NewRecordSet.init.fields = [] := rfl
  have e4 : NewRecordSet.init.nameIndex = [] := rfl
  rw [e1] at h2 h3
  rw [e4] at h1 h3
  refine ⟨?_, ?_, ?_, ?_⟩
  · intro hk
    have := h1 hk
    simpa [NewRecordSet, GoMap.get?_nil] using this
  · intro hk
    simpa [NewRecordSet] using hs hk
  · intro hwf hk
    have := h2 hwf hk
    simpa [NewRecordSet] using this
  · intro j hj
    have hj' : (m.foldl NewRecordSet.body (NewRecordSet.init, 0)).1.nameIndex.get? k =
        some j := hj
    rcases h3 j hj' with h | ⟨ha, hb, hc⟩
    · simp [GoMap.get?_nil] at h
    · exact ⟨ha, by simpa using hb, by simpa using hc⟩

theorem NewRecordSet_inv (record : List (GoMap Value)) : Inv (NewRecordSet record) := by
  cases record with
  | nil =>
    obtain ⟨hf, hv, hc, hn, _⟩ := NewRecordSet_nil
    refine ⟨?_, ?_, ?_, ?_⟩
    · rw [hf, hv, hc]; rfl
    · intro k; rw [hf, hn]; simp [GoMap.get?_nil]
    · intro k i; rw [hn]; simp [GoMap.get?_nil]
    · intro k i; rw [hn]; simp [GoMap.get?_nil]
  | cons m rest =>
    obtain ⟨hf, hv, hc, _⟩ := NewRecordSet_cons_fields m rest
    refine ⟨?_, ?_, ?_, ?_⟩
    · rw [hf, hv, hc]; simp [GoMap.keys]
    · intro k
      rw [hf]
      constructor
      · exact (NewRecordSet_cons_nameIndex m rest k).2.1
      · intro hs
        by_contra hk
        rw [(NewRecordSet_cons_nameIndex m rest k).1 hk] at hs
        simp at hs
    · intro k i hi
      have := (NewRecordSet_cons_nameIndex m rest k).2.2.2 i hi
      rw [hf]
      simpa [GoMap.keys] using this.2
    · intro k i hi
      have := (NewRecordSet_cons_nameIndex m rest k).2.2.2 i hi
      rw [hv]
      simp only [List.length_map]
      omega

theorem NewRecordSet_lenOk (record : List (GoMap Value)) (hseed : Seeded record) :
    LenOk (NewRecordSet record) := by
  cases record with
  | nil => exact rfl
  | cons m rest =>
    obtain ⟨_, hv, _, hl⟩ := NewRecordSet_cons_fields m rest
    have hm : m ≠ [] := hseed m rfl
    unfold LenOk
    rw [hl, hv, if_neg hm]
    simp

/-- What a run of mutating calls keeps, from any constructor call. -/
theorem reachable_inv (record : List (GoMap Value)) (ops : List Op) (r : TRecordSet)
    (hrun : runOps (NewRecordSet record) ops = some r) : Inv r :=
  (runOps_inv ops _ r hrun).1 (NewRecordSet_inv record)

/-- After a constructor call that is not led by an empty mapping, `length` is the
size of the primary lane throughout. -/
theorem reachable_lenOk (record : List (GoMap Value)) (ops : List Op) (r : TRecordSet)
    (hseed : Seeded record) (hrun : runOps (NewRecordSet record) ops = some r) : LenOk r :=
  (runOps_inv ops _ r hrun).2 (NewRecordSet_inv record) (NewRecordSet_lenOk record hseed)

/-! ## The export loop -/

theorem sliceGet_natCast {α : Type} (xs : List α) (n : Nat) :
    sliceGet xs (n : Int) = xs[n]? := by
  simp [sliceGet]

theorem TRecordSet.rangeFields_spec {β : Type} (conv : Value → β) (values : List Value)
    (fields : List String) (idx : Nat) (m0 : GoMap β)
    (hlen : idx + fields.length ≤ values.length) :
    ∃ out, TRecordSet.rangeFields conv values idx fields m0 = some out ∧
      (∀ k, k ∉ fields → out.get? k = m0.get? k) ∧
      (∀ k, k ∈ fields → (out.get? k).isSome) ∧
      (fields.Nodup → ∀ j, j < fields.length →
        out.get? (fields.getD j "") = (values[idx + j]?).map conv) := by
  induction fields generalizing idx m0 with
  | nil => exact ⟨m0, rfl, fun _ _ => rfl, by simp, by simp⟩
  | cons f rest ih =>
    have hidx : idx < values.length := by simp at hlen; omega
    have hget : sliceGet values (idx : Int) = some values[idx] := by
      rw [sliceGet_natCast]; exact List.getElem?_eq_getElem hidx
    obtain ⟨out, h1, h2, h3, h4⟩ := ih (idx + 1) (m0.set f (conv values[idx]))
      (by simp at hlen ⊢; omega)
    refine ⟨out, ?_, ?_, ?_, ?_⟩
    · simp only [TRecordSet.rangeFields, hget]; exact h1
    · intro k hk
      have hk' : k ≠ f ∧ k ∉ rest := by simpa using hk
      rw [h2 k hk'.2, GoMap.get?_set, if_neg hk'.1]
    · intro k hk
      by_cases hr : k ∈ rest
      · exact h3 k hr
      · have hkf : k = f := by
          have : k = f ∨ k ∈ rest := by simpa using hk
          exact this.resolve_right hr
        rw [h2 k hr, GoMap.get?_set, if_pos hkf]; rfl
    · intro hnd j hj
      have hnd' : f ∉ rest ∧ rest.Nodup := by simpa using hnd
      cases j with
      | zero =>
        simp only [List.getD_cons_zero, Nat.add_zero]
        rw [h2 f hnd'.1, GoMap.get?_set, if_pos rfl, List.getElem?_eq_getElem hidx]; rfl
      | succ j =>
        have := h4 hnd'.2 j (by simpa using hj)
        simp only [List.getD_cons_succ]
        rw [this]
        congr 2
        omega

/-! ## Construction -/

/-- Claim C1, at the empty mapping: `NewRecordSet(map[string]interface{}{})`
registers no field, resolves no name, and still reports `Length() == 1`. -/
theorem NewRecordSet_empty_mapping_length :
    (NewRecordSet [[]]).Fields = [] ∧ (NewRecordSet [[]]).nameIndex = [] ∧
    (NewRecordSet [[]]).Length = 1 := by
  decide

/-- Claim C2, at a one-entry mapping: `NewRecordSet(map[string]interface{}{"a": 1})`
holds one field and reports `IsEmpty() == true`. -/
theorem NewRecordSet_single_entry_isEmpty :
    (NewRecordSet [[("a", Value.int 1)]]).Fields = ["a"] ∧
    (NewRecordSet [[("a", Value.int 1)]]).Length = 1 ∧
    (NewRecordSet [[("a", Value.int 1)]]).IsEmpty = true := by
  decide

/-- Claim C3. Round trip: whatever the order in which the entries of the mapping `m`
are visited, `NewRecordSet(m).AsItfMap()` returns normally, and the mapping it returns
has the keys of `m` and gives each of them the value `m` gives it. -/
theorem AsItfMap_NewRecordSet_roundtrip (m order : GoMap Value) (rest : List (GoMap Value))
    (hm : m.WF) (hperm : order.Perm m) :
    ∃ out, (NewRecordSet (order :: rest)).AsItfMap = some out ∧
      ∀ k, out.get? k = m.get? k := by
  obtain ⟨hf, hv, _, _⟩ := NewRecordSet_cons_fields order rest
  have hkeys : order.keys.Perm m.keys := hperm.map Prod.fst
  have hwf : order.keys.Nodup := hkeys.nodup_iff.2 hm
  obtain ⟨out, h1, h2, _, h4⟩ := TRecordSet.rangeFields_spec id (order.map Prod.snd)
    order.keys 0 [] (by simp [GoMap.keys])
  refine ⟨out, ?_, ?_⟩
  · unfold TRecordSet.AsItfMap
    rw [hf, hv]; exact h1
  · intro k
    by_cases hk : k ∈ order.keys
    · obtain ⟨j, hj, hjk⟩ := List.getElem_of_mem hk
      have hj' : j < order.length := by simpa [GoMap.keys] using hj
      have hout := h4 hwf j hj
      rw [List.getD_eq_getElem _ _ hj, hjk] at hout
      have hval : (order.map Prod.snd)[0 + j]? = some order[j].2 := by
        simp [List.getElem?_eq_getElem hj']
      rw [hval] at hout
      have hmem : (k, order[j].2) ∈ m := by
        have hkj : order[j].1 = k := by simpa [GoMap.keys] using hjk
        have : order[j] ∈ order := List.getElem_mem hj'
        rw [← hkj]
        exact hperm.subset this
      rw [hout, GoMap.get?_of_mem m hm k _ hmem]; rfl
    · have hk' : k ∉ m.keys := fun h => hk (hkeys.symm.subset h)
      rw [h2 k hk, (GoMap.get?_eq_none_iff m k).2 hk']; rfl

/-- The round trip of claim C3 on the mapping `{a: 1, b: "x"}`, visited `b` first. -/
theorem AsItfMap_NewRecordSet_roundtrip_witness :
    GoMap.WF [("a", Value.int 1), ("b", Value.str "x")] ∧
    ∃ out, (NewRecordSet [[("b", Value.str "x"), ("a", Value.int 1)]]).AsItfMap = some out ∧
      ∀ k, out.get? k = GoMap.get? [("a", Value.int 1), ("b", Value.str "x")] k :=
  ⟨by decide,
   AsItfMap_NewRecordSet_roundtrip [("a", Value.int 1), ("b", Value.str "x")]
     [("b", Value.str "x"), ("a", Value.int 1)] [] (by decide) (List.Perm.swap _ _ _)⟩

/-! ## Reads -/

/-- Claim C6. For a name that is not a key of the name-to-index mapping (a name never
registered), `GetByName` returns the empty string for either value of the classic flag
and does not panic. The method is a function of the record: it assigns to no member. -/
theorem GetByName_unregistered (r : TRecordSet) (name : String) (classic : Bool)
    (hnew : r.nameIndex.get? name = none) :
    r.GetByName name classic = some (Value.str "") := by
  unfold TRecordSet.GetByName
  rw [hnew]

/-- Claim C6 on the record built from `{a: 1}`, read at the name `b`. -/
theorem GetByName_unregistered_witness :
    (NewRecordSet [[("a", Value.int 1)]]).nameIndex.get? "b" = none ∧
    (NewRecordSet [[("a", Value.int 1)]]).GetByName "b" true = some (Value.str "") :=
  ⟨by decide, GetByName_unregistered _ "b" true (by decide)⟩

/-! ## Writes by name -/

/-- Claim C4, on three inputs. On `NewRecordSet()`, registering `a` with
`classic = true` leaves `Length()` at 0; registering `b` afterwards with
`classic = false` gives `FieldIndex("b") == 0` although `b` is at position 1 of
`Fields()`; and on `NewRecordSet(map[string]interface{}{})`, registering `a` with
`classic = false` leaves `Length()` at 1. -/
theorem SetByName_new_name_diverges :
    (NewRecordSet []).nameIndex.get? "a" = none ∧
    (NewRecordSet []).Length = 0 ∧
    ((NewRecordSet []).SetByName (some ⟨"a", false⟩) "a" (Value.int 1) true).map
      (fun p => (p.2.1.Length, p.2.1.Fields)) = some (0, ["a"]) ∧
    (runOps (NewRecordSet []) [Op.SetByName (some ⟨"a", false⟩) "a" (Value.int 1) true]).map
      (fun r => r.nameIndex.get? "b") = some none ∧
    ((runOps (NewRecordSet []) [Op.SetByName (some ⟨"a", false⟩) "a" (Value.int 1) true]).bind
      (fun r => r.SetByName (some ⟨"b", false⟩) "b" (Value.int 2) false)).map
      (fun p => (p.2.1.FieldIndex "b", p.2.1.Fields.indexOf "b")) = some (0, 1) ∧
    (NewRecordSet [[]]).nameIndex.get? "a" = none ∧
    (NewRecordSet [[]]).Length = 1 ∧
    ((NewRecordSet [[]]).SetByName (some ⟨"a", false⟩) "a" (Value.int 1) false).map
      (fun p => (p.2.1.Length, p.2.1.Fields)) = some (1, ["a"]) := by
  decide

/-- Where a write to a new name does what is expected of it: on a record reached
from `NewRecordSet()` or from `NewRecordSet(m)` with `m` not empty whose classic lane
is empty, `SetByName(fs, name, value, false)` returns `true`, increases `Length()` by
exactly 1 and leaves `FieldIndex(name)` at the position of `name` in `Fields()`. -/
theorem SetByName_new_name_primary (record : List (GoMap Value)) (ops : List Op)
    (r : TRecordSet) (h : TFieldSet) (name : String) (value : Value)
    (hseed : Seeded record) (hrun : runOps (NewRecordSet record) ops = some r)
    (hcl : r.ClassicValues = []) (hnew : r.nameIndex.get? name = none) :
    ∃ h' r', r.SetByName (some h) name value false = some (h', r', true) ∧
      r'.Length = r.Length + 1 ∧
      r'.FieldIndex name = ((r'.Fields.indexOf name : Nat) : Int) := by
  have hinv := reachable_inv record ops r hrun
  have hlen : r.length = r.values.length := reachable_lenOk record ops r hseed hrun
  refine ⟨_, _, TRecordSet.SetByName_new r h name value false hnew, ?_, ?_⟩
  · simp only [TRecordSet.Length]
    rw [hlen]
    simp
  · have hpos := TRecordSet.SetByName_new_position r name hinv hnew
    rw [hcl] at hpos
    simpa [TRecordSet.FieldIndex, TRecordSet.Fields] using hpos

/-- Claim C5, at a registered name on the classic lane: on the record built from
`{a: 1}`, whose classic lane is empty, `SetByName(fs, "a", 2, true)` reaches
`self.ClassicValues[0] = value` and panics. -/
theorem SetByName_existing_classic_panics :
    (NewRecordSet [[("a", Value.int 1)]]).nameIndex.get? "a" = some 0 ∧
    (NewRecordSet [[("a", Value.int 1)]]).ClassicValues = [] ∧
    (NewRecordSet [[("a", Value.int 1)]]).SetByName (some ⟨"a", false⟩) "a" (Value.int 2)
      true = none := by
  decide

/-! ## Positional reads and writes -/

/-- Claim C7, at a negative index and at the record of an empty mapping:
`NewRecordSet().Get(-1, false)` passes the guard `index >= self.length` and panics
at `self.values[-1]`; `NewRecordSet(map[string]interface{}{}).Get(0, false)` passes
the guard because `length` is 1 and panics at `self.values[0]`. -/
theorem Get_panics :
    (NewRecordSet []).Get (-1) false = none ∧
    (NewRecordSet [[("a", Value.int 1)]]).Get (-1) true = none ∧
    (NewRecordSet [[]]).Get 0 false = none := by
  decide

/-- Claim C8, at an index the classic lane does not have: on the record built from
`{a: 1}`, `Set(0, 2, true)` passes the guard `index >= self.length` and panics at
`self.ClassicValues[0] = value`; `Set(-1, 2, false)` panics at `self.values[-1]`. -/
theorem Set_panics :
    (NewRecordSet [[("a", Value.int 1)]]).Length = 1 ∧
    (NewRecordSet [[("a", Value.int 1)]]).ClassicValues = [] ∧
    (NewRecordSet [[("a", Value.int 1)]]).Set 0 (Value.int 2) true = none ∧
    (NewRecordSet [[("a", Value.int 1)]]).Set (-1) (Value.int 2) false = none := by
  decide

/-! ## The record invariant -/

/-- Claim C9, after a classic registration and after an empty mapping. After
`NewRecordSet()` and the single mutation `SetByName(fs, "a", 1, true)`, `Length()`
is 0, `Fields()` has one name, and `a` maps to the index 0, which is not below
`Length()`. After `NewRecordSet(map[string]interface{}{})` and the single mutation
`Set(5, nil, false)`, `Length()` is 1 and `Fields()` is empty. -/
theorem invariant_broken :
    (runOps (NewRecordSet []) [Op.SetByName (some ⟨"a", false⟩) "a" (Value.int 1) true]).map
      (fun r => (r.Length, r.Fields.length, r.nameIndex.get? "a")) = some (0, 1, some 0) ∧
    (runOps (NewRecordSet [[]]) [Op.Set 5 Value.nil false]).map
      (fun r => (r.Length, r.Fields.length)) = some (1, 0) := by
  decide

/-- Where the invariant holds: on a record reached from `NewRecordSet()` or from
`NewRecordSet(m)` with `m` not empty whose classic lane is empty,
`Length() == len(Fields())` and every name of the name-to-index mapping maps to an
index `i` with `0 <= i < Length()`. -/
theorem invariant_of_empty_classic_lane (record : List (GoMap Value))
    (ops : List Op) (r : TRecordSet) (hseed : Seeded record)
    (hrun : runOps (NewRecordSet record) ops = some r) (hcl : r.ClassicValues = []) :
    r.Length = (r.Fields.length : Int) ∧
    ∀ name i, r.nameIndex.get? name = some i → 0 ≤ i ∧ i < r.Length := by
  have hinv := reachable_inv record ops r hrun
  have hlen : r.length = r.values.length := reachable_lenOk record ops r hseed hrun
  have hl := hinv.lanes
  rw [hcl] at hl
  simp only [List.length_nil, Nat.add_zero] at hl
  have hLF : r.Length = (r.Fields.length : Int) := by
    simp only [TRecordSet.Length, TRecordSet.Fields]
    rw [hlen, hl]
  refine ⟨hLF, ?_⟩
  intro name i hi
  rw [hLF]
  exact hinv.index name i hi

/-! ## Map exports -/

/-- Claim C10, after a first classic write: on `NewRecordSet()` followed by
`SetByName(fs, "a", 1, true)` the name `a` is in `Fields()` while the primary lane
is empty, and both `AsItfMap()` and `AsStrMap()` panic at `self.values[0]`. -/
theorem exports_panic_after_classic_registration :
    (runOps (NewRecordSet []) [Op.SetByName (some ⟨"a", false⟩) "a" (Value.int 1) true]).map
      (fun r => (r.Fields, r.values)) = some (["a"], []) ∧
    (runOps (NewRecordSet []) [Op.SetByName (some ⟨"a", false⟩) "a" (Value.int 1) true]).bind
      TRecordSet.AsItfMap = none ∧
    ∀ Itf2Str : Value → String,
      (runOps (NewRecordSet []) [Op.SetByName (some ⟨"a", false⟩) "a" (Value.int 1) true]).bind
        (TRecordSet.AsStrMap Itf2Str) = none := by
  refine ⟨by decide, by decide, ?_⟩
  intro _
  rfl

/-! ## The guarded paths

What the constructor, `Get`, `Set` and the exports do on the inputs their guards
cover. -/

/-- A mapping with at least one entry: `Length()` is the number of entries, every
name resolves to its position in `Fields()`, below `Length()`, and two names with
the same index are the same name. -/
theorem NewRecordSet_nonempty_mapping (m : GoMap Value) (rest : List (GoMap Value))
    (hm : m.WF) (hne : m ≠ []) :
    (NewRecordSet (m :: rest)).Length = (m.length : Int) ∧
    ∀ k ∈ m.keys,
      0 ≤ (NewRecordSet (m :: rest)).FieldIndex k ∧
      (NewRecordSet (m :: rest)).FieldIndex k < (m.length : Int) ∧
      (NewRecordSet (m :: rest)).Fields[((NewRecordSet (m :: rest)).FieldIndex k).toNat]? =
        some k ∧
      ∀ k' ∈ m.keys, (NewRecordSet (m :: rest)).FieldIndex k' =
        (NewRecordSet (m :: rest)).FieldIndex k → k' = k := by
  obtain ⟨hf, _, _, hl⟩ := NewRecordSet_cons_fields m rest
  have hidx : ∀ k ∈ m.keys, (NewRecordSet (m :: rest)).FieldIndex k =
      ((m.keys.indexOf k : Nat) : Int) := by
    intro k hk
    simp only [TRecordSet.FieldIndex]
    rw [(NewRecordSet_cons_nameIndex m rest k).2.2.1 hm hk]; rfl
  refine ⟨by simp only [TRecordSet.Length]; rw [hl, if_neg hne], ?_⟩
  intro k hk
  have hlt : m.keys.indexOf k < m.length := by
    have := List.indexOf_lt_length.2 hk
    simpa [GoMap.keys] using this
  rw [hidx k hk]
  refine ⟨by omega, by omega, ?_, ?_⟩
  · simp only [TRecordSet.Fields, Int.toNat_ofNat]
    rw [hf]
    exact List.getElem?_indexOf hk
  · intro k' hk' he
    rw [hidx k' hk'] at he
    exact (List.indexOf_inj hk' hk).1 (by exact_mod_cast he)

/-- When `length` is the size of the primary lane, `Get` at an index that is not
negative returns the primary value at the index, `nil` past the end, whatever the
classic flag. -/
theorem TRecordSet.Get_of_nonneg (r : TRecordSet) (index : Int) (classic : Bool)
    (hlen : LenOk r) (hidx : 0 ≤ index) :
    r.Get index classic = some ((r.values[index.toNat]?).getD Value.nil) := by
  unfold LenOk at hlen
  unfold TRecordSet.Get
  by_cases h : index ≥ r.length
  · rw [if_pos h]
    have : r.values.length ≤ index.toNat := by omega
    rw [List.getElem?_eq_none this]; rfl
  · rw [if_neg h]
    have hlt : index.toNat < r.values.length := by omega
    simp [sliceGet, hidx, List.getElem?_eq_getElem hlt]

/-- At or past `length`, `Set` returns `false` and leaves the record as it is. -/
theorem TRecordSet.Set_of_length_le (r : TRecordSet) (index : Int) (value : Value)
    (classic : Bool) (h : r.length ≤ index) :
    r.Set index value classic = some (r, false) := by
  unfold TRecordSet.Set
  rw [if_pos h]

/-- When `length` is the size of the primary lane, `Set` with `classic = false` at
an index of that lane returns `true` and replaces the one primary value. -/
theorem TRecordSet.Set_primary (r : TRecordSet) (index : Int) (value : Value)
    (hlen : LenOk r) (hidx : 0 ≤ index) (hlt : index < r.length) :
    r.Set index value false =
      some ({ r with values := r.values.set index.toNat value }, true) := by
  unfold LenOk at hlen
  unfold TRecordSet.Set
  have h1 : ¬ index ≥ r.length := by omega
  have h2 : 0 ≤ index ∧ index.toNat < r.values.length := ⟨hidx, by omega⟩
  simp [h1, sliceSet, h2]

/-- While the classic lane is empty the exports return normally, with exactly the
names of `fields` as keys. -/
theorem TRecordSet.exports_of_empty_classic_lane {β : Type} (conv : Value → β)
    (r : TRecordSet) (hinv : Inv r) (hcl : r.ClassicValues = []) :
    ∃ out, TRecordSet.rangeFields conv r.values 0 r.fields [] = some out ∧
      ∀ k, (out.get? k).isSome ↔ k ∈ r.fields := by
  have hl := hinv.lanes
  rw [hcl] at hl
  obtain ⟨out, h1, h2, h3, _⟩ := TRecordSet.rangeFields_spec conv r.values r.fields 0 []
    (by simp at hl ⊢; omega)
  refine ⟨out, h1, fun k => ⟨?_, h3 k⟩⟩
  intro hs
  by_contra hk
  rw [h2 k hk] at hs
  simp [GoMap.get?_nil] at hs

/-! ## Fields under the mutating calls -/

/-- A completed call leaves `fields` as it is or appends one name that was not
registered. -/
theorem Op.apply_fields (r r' : TRecordSet) (op : Op) (hinv : Inv r)
    (h : op.apply r = some r') :
    r'.fields = r.fields ∨ ∃ name, name ∉ r.fields ∧ r'.fields = r.fields ++ [name] := by
  cases op with
  | Set i v c =>
    simp only [Op.apply, Option.map_eq_some'] at h
    obtain ⟨⟨r1, b⟩, h1, h2⟩ := h
    simp at h2; subst h2
    exact Or.inl (TRecordSet.Set_frame r r1 i v c b h1).1
  | SetByName fs name v c =>
    simp only [Op.apply, Option.map_eq_some'] at h
    obtain ⟨⟨f1, r1, b⟩, h1, h2⟩ := h
    simp at h2; subst h2
    cases fs with
    | none => simp [TRecordSet.SetByName] at h1
    | some f =>
      cases hn : r.nameIndex.get? name with
      | some idx =>
        unfold TRecordSet.SetByName at h1
        simp only [hn] at h1
        split at h1
        · cases h1
        · rename_i r2 b2 hset
          simp at h1
          obtain ⟨_, h2, _⟩ := h1
          subst h2
          exact Or.inl (TRecordSet.Set_frame r r2 idx v c b2 hset).1
      | none =>
        rw [TRecordSet.SetByName_new r f name v c hn] at h1
        simp at h1
        obtain ⟨_, h2, _⟩ := h1
        subst h2
        refine Or.inr ⟨name, ?_, rfl⟩
        intro hmem
        have := (hinv.names name).1 hmem
        rw [hn] at this
        simp at this

theorem Op.apply_nodup (r r' : TRecordSet) (op : Op) (hinv : Inv r)
    (hnd : r.fields.Nodup) (h : op.apply r = some r') : r'.fields.Nodup := by
  rcases Op.apply_fields r r' op hinv h with he | ⟨name, hnot, he⟩
  · rw [he]; exact hnd
  · rw [he]
    exact List.nodup_append.2 ⟨hnd, List.nodup_singleton name, by
      intro a ha hb
      have : a = name := by simpa using hb
      exact hnot (this ▸ ha)⟩

theorem runOps_nodup (ops : List Op) (r r' : TRecordSet) (hinv : Inv r)
    (hnd : r.fields.Nodup) (h : runOps r ops = some r') : r'.fields.Nodup := by
  induction ops generalizing r with
  | nil => simp [runOps] at h; subst h; exact hnd
  | cons op ops ih =>
    unfold runOps at h
    split at h
    · cases h
    · rename_i r1 h1
      exact ih r1 ((Op.apply_inv r r1 op h1).1 hinv) (Op.apply_nodup r r1 op hinv hnd h1) h

theorem NewRecordSet_nodup (record : List (GoMap Value)) (hwf : WFArgs record) :
    (NewRecordSet record).fields.Nodup := by
  cases record with
  | nil => rw [NewRecordSet_nil.1]; exact List.nodup_nil
  | cons m rest =>
    rw [(NewRecordSet_cons_fields m rest).1]
    exact hwf m rfl

/-- No name occurs twice in the fields of a record reached from a constructor call. -/
theorem reachable_nodup (record : List (GoMap Value)) (ops : List Op) (r : TRecordSet)
    (hwf : WFArgs record) (hrun : runOps (NewRecordSet record) ops = some r) :
    r.fields.Nodup :=
  runOps_nodup ops _ r (NewRecordSet_inv record) (NewRecordSet_nodup record hwf) hrun

/-! ## The length after a write by name -/

theorem NewRecordSet_weakLenOk (record : List (GoMap Value)) :
    WeakLenOk (NewRecordSet record) := by
  cases record with
  | nil => intro _; exact rfl
  | cons m rest =>
    obtain ⟨hf, hv, _, hl⟩ := NewRecordSet_cons_fields m rest
    intro hne
    have hm : m ≠ [] := by
      intro hm
      apply hne
      rw [hf, hm]; rfl
    unfold LenOk
    rw [hl, hv, if_neg hm]
    simp

/-- After every completed `SetByName`, `length` is the size of the primary lane. -/
theorem TRecordSet.SetByName_lenOk (r r' : TRecordSet) (fs : Option TFieldSet)
    (h' : TFieldSet) (name : String) (v : Value) (c b : Bool) (hinv : Inv r)
    (hw : WeakLenOk r) (h : r.SetByName fs name v c = some (h', r', b)) : LenOk r' := by
  cases fs with
  | none => simp [TRecordSet.SetByName] at h
  | some f =>
    cases hn : r.nameIndex.get? name with
    | some idx =>
      have hmem : name ∈ r.fields := (hinv.names name).2 (by rw [hn]; rfl)
      have hl : LenOk r := hw (List.ne_nil_of_mem hmem)
      exact (TRecordSet.SetByName_inv r r' (some f) h' name v c b h).2 hinv hl
    | none =>
      rw [TRecordSet.SetByName_new r f name v c hn] at h
      simp at h
      obtain ⟨_, h2, _⟩ := h
      subst h2
      simp [LenOk]

theorem Op.apply_weakLenOk (r r' : TRecordSet) (op : Op) (hinv : Inv r) (hw : WeakLenOk r)
    (h : op.apply r = some r') : WeakLenOk r' := by
  cases op with
  | Set i v c =>
    simp only [Op.apply, Option.map_eq_some'] at h
    obtain ⟨⟨r1, b⟩, h1, h2⟩ := h
    simp at h2; subst h2
    obtain ⟨e1, _, _, _, _, _, _⟩ := TRecordSet.Set_frame r r1 i v c b h1
    intro hne
    rw [e1] at hne
    exact (TRecordSet.Set_inv r r1 i v c b h1).2 (hw hne)
  | SetByName fs name v c =>
    simp only [Op.apply, Option.map_eq_some'] at h
    obtain ⟨⟨f1, r1, b⟩, h1, h2⟩ := h
    simp at h2; subst h2
    intro _
    exact TRecordSet.SetByName_lenOk r r1 fs f1 name v c b hinv hw h1

theorem runOps_weakLenOk (ops : List Op) (r r' : TRecordSet) (hinv : Inv r)
    (hw : WeakLenOk r) (h : runOps r ops = some r') : WeakLenOk r' := by
  induction ops generalizing r with
  | nil => simp [runOps] at h; subst h; exact hw
  | cons op ops ih =>
    unfold runOps at h
    split at h
    · cases h
    · rename_i r1 h1
      exact ih r1 ((Op.apply_inv r r1 op h1).1 hinv) (Op.apply_weakLenOk r r1 op hinv hw h1) h

/-- From any constructor call, `length` is the size of the primary lane as soon
as a field is registered. -/
theorem reachable_weakLenOk (record : List (GoMap Value)) (ops : List Op) (r : TRecordSet)
    (hrun : runOps (NewRecordSet record) ops = some r) : WeakLenOk r :=
  runOps_weakLenOk ops _ r (NewRecordSet_inv record) (NewRecordSet_weakLenOk record) hrun

theorem runOps_fields_prefix (ops : List Op) (r r' : TRecordSet) (hinv : Inv r)
    (h : runOps r ops = some r') : r.fields <+: r'.fields := by
  induction ops generalizing r with
  | nil => simp [runOps] at h; subst h; exact List.prefix_refl _
  | cons op ops ih =>
    unfold runOps at h
    split at h
    · cases h
    · rename_i r1 h1
      have h2 := ih r1 ((Op.apply_inv r r1 op h1).1 hinv) h
      rcases Op.apply_fields r r1 op hinv h1 with he | ⟨name, _, he⟩
      · rw [← he]; exact h2
      · exact List.IsPrefix.trans (by rw [he]; exact List.prefix_append _ _) h2

/-- After every completed `SetByName` on a record reached from any constructor call,
`Length()` is the number of values of the primary lane. -/
theorem reachable_SetByName_length (record : List (GoMap Value)) (ops : List Op)
    (r r' : TRecordSet) (fs : Option TFieldSet) (h' : TFieldSet) (name : String)
    (v : Value) (c b : Bool) (hrun : runOps (NewRecordSet record) ops = some r)
    (h : r.SetByName fs name v c = some (h', r', b)) :
    r'.Length = (r'.values.length : Int) :=
  TRecordSet.SetByName_lenOk r r' fs h' name v c b (reachable_inv record ops r hrun)
    (reachable_weakLenOk record ops r hrun) h

/-- A first classic write of a new name appends the name to `fields` and the value
to the classic lane and leaves the primary lane as it is; `Length()` stays when it
was the size of the primary lane before. -/
theorem TRecordSet.SetByName_new_classic (r : TRecordSet) (h : TFieldSet) (name : String)
    (v : Value) (hnew : r.nameIndex.get? name = none) :
    ∃ h' r', r.SetByName (some h) name v true = some (h', r', true) ∧
      r'.Fields = r.Fields ++ [name] ∧ r'.ClassicValues = r.ClassicValues ++ [v] ∧
      r'.values = r.values ∧ (LenOk r → r'.Length = r.Length) := by
  refine ⟨_, _, TRecordSet.SetByName_new r h name v true hnew, rfl, rfl, rfl, ?_⟩
  intro hl
  simp only [TRecordSet.Length]
  rw [hl]; rfl

/-- The guard of `FiledByIndex`: at or past `length` the result is the nil pointer,
with or without a dataset. -/
theorem TRecordSet.FiledByIndex_of_length_le (nfs : String → TRecordSet → FieldHandle)
    (r : TRecordSet) (index : Int) (h : r.length ≤ index) :
    r.FiledByIndex nfs index = some none := by
  unfold TRecordSet.FiledByIndex
  rw [if_pos h]

/-- With a dataset attached whose field count differs from `length`, `FiledByIndex`
returns the nil pointer at every index that `fields` has. -/
theorem TRecordSet.FiledByIndex_count_mismatch (nfs : String → TRecordSet → FieldHandle)
    (r : TRecordSet) (ds : IDataSet) (index : Int) (hds : r.dataSet = some ds)
    (hcount : (ds.Fields.length : Int) ≠ r.length) (h0 : 0 ≤ index)
    (hlt : index.toNat < r.fields.length) :
    r.FiledByIndex nfs index = some none := by
  unfold TRecordSet.FiledByIndex
  by_cases h : index ≥ r.length
  · rw [if_pos h]
  · rw [if_neg h]
    have hget : sliceGet r.fields index = some (r.fields[index.toNat]) := by
      simp [sliceGet, h0, List.getElem?_eq_getElem hlt]
    simp only [hget, hds]
    rw [if_pos hcount]

/-! ## Field names -/

/-- Claim C20. On a record reached from `NewRecordSet` by any sequence of completed
`Set`/`SetByName` calls, `Fields()` holds no name twice, a name is in `Fields()` if
and only if it is a key of the name-to-index mapping, the fields of the constructed
record are a prefix of `Fields()`, every further completed call leaves `Fields()` a
prefix of the new `Fields()`, and `SetDataset` leaves `Fields()` as it is. -/
theorem fields_unique_and_kept (record : List (GoMap Value)) (ops : List Op)
    (r : TRecordSet) (hwf : WFArgs record)
    (hrun : runOps (NewRecordSet record) ops = some r) :
    r.Fields.Nodup ∧
    (∀ k, k ∈ r.Fields ↔ (r.nameIndex.get? k).isSome) ∧
    (NewRecordSet record).Fields <+: r.Fields ∧
    (∀ op r', Op.apply r op = some r' → r.Fields <+: r'.Fields) ∧
    ∀ ds, (r.SetDataset ds).Fields = r.Fields := by
  have hinv := reachable_inv record ops r hrun
  refine ⟨reachable_nodup record ops r hwf hrun, hinv.names,
    runOps_fields_prefix ops _ r (NewRecordSet_inv record) hrun, ?_, fun _ => rfl⟩
  intro op r' hop
  rcases Op.apply_fields r r' op hinv hop with he | ⟨name, _, he⟩
  · simp only [TRecordSet.Fields]; rw [he]
  · simp only [TRecordSet.Fields]; rw [he]; exact List.prefix_append _ _

/-- Claim C20 on the record built from `{a: 1}` after four calls. -/
theorem fields_unique_and_kept_witness :
    WFArgs [[("a", Value.int 1)]] ∧
    runOps (NewRecordSet [[("a", Value.int 1)]])
      [Op.Set 0 (Value.int 5) false, Op.SetByName (some ⟨"b", false⟩) "b" (Value.int 2) false,
       Op.SetByName (some ⟨"a", false⟩) "a" (Value.int 3) false, Op.Set 7 Value.nil true]
      = some sampleRecord ∧
    sampleRecord.Fields.Nodup ∧
    (∀ k, k ∈ sampleRecord.Fields ↔ (sampleRecord.nameIndex.get? k).isSome) ∧
    (NewRecordSet [[("a", Value.int 1)]]).Fields <+: sampleRecord.Fields ∧
    (∀ op r', Op.apply sampleRecord op = some r' → sampleRecord.Fields <+: r'.Fields) ∧
    ∀ ds, (sampleRecord.SetDataset ds).Fields = sampleRecord.Fields :=
  ⟨by intro m hm; cases hm; decide, by decide,
   fields_unique_and_kept [[("a", Value.int 1)]]
     [Op.Set 0 (Value.int 5) false, Op.SetByName (some ⟨"b", false⟩) "b" (Value.int 2) false,
      Op.SetByName (some ⟨"a", false⟩) "a" (Value.int 3) false, Op.Set 7 Value.nil true]
     sampleRecord (by intro m hm; cases hm; decide) (by decide)⟩

/-- Claim C19, after a classic registration: on `NewRecordSet()`, `SetByName(fs, "a",
1, true)` followed by `SetByName(fs, "b", 2, false)` leaves `Fields() == [a, b]` with
both names at index 0, and the write to `b` turns `GetByName("a", false)` from nil
into 2. -/
theorem nameIndex_collision_after_classic_registration :
    (runOps (NewRecordSet [])
      [Op.SetByName (some ⟨"a", false⟩) "a" (Value.int 1) true,
       Op.SetByName (some ⟨"b", false⟩) "b" (Value.int 2) false]).map
      (fun r => (r.Fields, r.FieldIndex "a", r.FieldIndex "b")) = some (["a", "b"], 0, 0) ∧
    (runOps (NewRecordSet [])
      [Op.SetByName (some ⟨"a", false⟩) "a" (Value.int 1) true]).bind
      (fun r => r.GetByName "a" false) = some Value.nil ∧
    (runOps (NewRecordSet [])
      [Op.SetByName (some ⟨"a", false⟩) "a" (Value.int 1) true,
       Op.SetByName (some ⟨"b", false⟩) "b" (Value.int 2) false]).bind
      (fun r => r.GetByName "a" false) = some (Value.int 2) := by
  decide

/-! ## The length after a classic write -/

/-- Claim C17, on the record of an empty mapping: `NewRecordSet(map[string]interface{}{})`
has `Length() == 1` over an empty primary lane, and the first classic write
`SetByName(fs, "a", 1, true)` brings `Length()` to 0. -/
theorem SetByName_classic_length_after_empty_mapping :
    (NewRecordSet [[]]).Length = 1 ∧ (NewRecordSet [[]]).values = [] ∧
    (NewRecordSet [[]]).nameIndex.get? "a" = none ∧
    ((NewRecordSet [[]]).SetByName (some ⟨"a", false⟩) "a" (Value.int 1) true).map
      (fun p => (p.2.1.Length, p.2.1.values, p.2.1.Fields, p.2.1.ClassicValues)) =
      some (0, [], ["a"], [Value.int 1]) := by
  decide

/-! ## Metadata by position -/

/-- Claim C11, on the record of an empty mapping with a dataset attached: the
dataset has no field while `Length()` is 1, the index 0 is in `[0, Length())`, and
`FiledByIndex(0)` panics at `self.fields[0]` before it compares the counts. -/
theorem FiledByIndex_panics_after_empty_mapping :
    ((NewRecordSet [[]]).SetDataset (some ⟨[]⟩)).Length = 1 ∧
    ((NewRecordSet [[]]).SetDataset (some ⟨[]⟩)).Fields = [] ∧
    ∀ nfs : String → TRecordSet → FieldHandle,
      ((NewRecordSet [[]]).SetDataset (some ⟨[]⟩)).FiledByIndex nfs 0 = none := by
  refine ⟨by decide, by decide, ?_⟩
  intro nfs
  rfl

/-- Claim C16, at a field whose name is the empty string: on the record built from
`{"": 1}` with no dataset, the name is registered at position 0 and
`FiledByIndex(0)` returns metadata with `IsValid == false`, whatever `newFieldSet`
builds. -/
theorem FiledByIndex_empty_name_not_valid :
    (NewRecordSet [[("", Value.int 1)]]).Fields = [""] ∧
    (NewRecordSet [[("", Value.int 1)]]).Length = 1 ∧
    (NewRecordSet [[("", Value.int 1)]]).nameIndex.get? "" = some 0 ∧
    (NewRecordSet [[("", Value.int 1)]]).dataSet = none ∧
    ∀ nfs : String → TRecordSet → FieldHandle,
      ((NewRecordSet [[("", Value.int 1)]]).FiledByIndex nfs 0).map
        (fun o => o.map (fun h => h.field.IsValid)) = some (some false) := by
  refine ⟨by decide, by decide, by decide, by decide, ?_⟩
  intro nfs
  rfl

/-! ## Runs of primary writes by name -/

theorem NewRecordSet_lockstep (record : List (GoMap Value)) (hwf : WFArgs record) :
    Lockstep (NewRecordSet record) := by
  cases record with
  | nil =>
    obtain ⟨hf, _, hc, _, _⟩ := NewRecordSet_nil
    exact ⟨hc, by rw [hf]; exact List.nodup_nil, by intro i hi; rw [hf] at hi; cases hi⟩
  | cons m rest =>
    obtain ⟨hf, _, hc, _⟩ := NewRecordSet_cons_fields m rest
    have hm : m.WF := hwf m rfl
    refine ⟨hc, by rw [hf]; exact hm, ?_⟩
    intro i hi
    rw [hf] at hi ⊢
    have hmem : (keys m).getD i "" ∈ keys m := by
      rw [List.getD_eq_getElem _ _ hi]; exact List.getElem_mem hi
    rw [(NewRecordSet_cons_nameIndex m rest _).2.2.1 hm hmem, List.getD_eq_getElem _ _ hi,
      List.indexOf_getElem hm i hi]

/-- A primary write by name with a handle that is not nil returns, and keeps the
name-to-index mapping on the field list. -/
theorem TRecordSet.SetByName_primary_lockstep (r : TRecordSet) (f : TFieldSet)
    (name : String) (v : Value) (hinv : Inv r) (hlock : Lockstep r) (hw : WeakLenOk r) :
    ∃ h' r' b, r.SetByName (some f) name v false = some (h', r', b) ∧ Lockstep r' := by
  have hlanes := hinv.lanes
  rw [hlock.classic] at hlanes
  simp only [List.length_nil, Nat.add_zero] at hlanes
  cases hn : r.nameIndex.get? name with
  | some idx =>
    have hmem : name ∈ r.fields := (hinv.names name).2 (by rw [hn]; rfl)
    have hl : r.length = r.values.length := hw (List.ne_nil_of_mem hmem)
    obtain ⟨h0, h1⟩ := hinv.index name idx hn
    have hset : ∃ r1 b1, r.Set idx v false = some (r1, b1) := by
      unfold TRecordSet.Set
      by_cases hge : idx ≥ r.length
      · exact ⟨r, false, by rw [if_pos hge]⟩
      · have h2 : 0 ≤ idx ∧ idx.toNat < r.values.length := ⟨h0, by omega⟩
        exact ⟨{ r with values := r.values.set idx.toNat v }, true, by
          simp [hge, sliceSet, h2]⟩
    obtain ⟨r1, b1, hset⟩ := hset
    refine ⟨{ f with IsValid := true }, r1, b1, ?_, ?_⟩
    · unfold TRecordSet.SetByName
      simp only [hn, hset]
    · obtain ⟨e1, e2, _, _, e5, _, _⟩ := TRecordSet.Set_frame r r1 idx v false b1 hset
      refine ⟨?_, by rw [e1]; exact hlock.nodup, by rw [e1, e2]; exact hlock.position⟩
      have : r1.ClassicValues.length = 0 := by rw [e5, hlock.classic]; rfl
      exact List.eq_nil_of_length_eq_zero this
  | none =>
    have hnot : name ∉ r.fields := by
      intro hmem
      have := (hinv.names name).1 hmem
      rw [hn] at this
      simp at this
    refine ⟨_, _, _, TRecordSet.SetByName_new r f name v false hn, ?_, ?_, ?_⟩
    · exact hlock.classic
    · exact List.nodup_append.2 ⟨hlock.nodup, List.nodup_singleton name, by
        intro a ha hb
        have : a = name := by simpa using hb
        exact hnot (this ▸ ha)⟩
    · intro i hi
      simp only [List.length_append, List.length_singleton] at hi
      simp only [GoMap.get?_set]
      by_cases hlt : i < r.fields.length
      · have hget : (r.fields ++ [name]).getD i "" = r.fields.getD i "" := by
          rw [List.getD_eq_getElem _ _ (by simp; omega), List.getD_eq_getElem _ _ hlt,
            List.getElem_append_left hlt]
        have hne : r.fields.getD i "" ≠ name := by
          intro he
          apply hnot
          rw [← he, List.getD_eq_getElem _ _ hlt]
          exact List.getElem_mem hlt
        rw [hget, if_neg hne]
        exact hlock.position i hlt
      · have hi' : i = r.fields.length := by omega
        have hget : (r.fields ++ [name]).getD i "" = name := by
          subst hi'
          rw [List.getD_eq_getElem _ _ (by simp)]
          simp
        rw [hget, if_pos rfl, hi', hlanes]

theorem runOps_primary (ops : List Op) (r : TRecordSet) (hinv : Inv r) (hlock : Lockstep r)
    (hw : WeakLenOk r) (hall : ops.all Op.isPrimarySetByName = true) :
    ∃ r', runOps r ops = some r' ∧ Inv r' ∧ Lockstep r' ∧ WeakLenOk r' ∧
      (ops ≠ [] → LenOk r') := by
  induction ops generalizing r with
  | nil => exact ⟨r, rfl, hinv, hlock, hw, fun h => absurd rfl h⟩
  | cons op ops ih =>
    simp only [List.all_cons, Bool.and_eq_true] at hall
    obtain ⟨hop, hrest⟩ := hall
    cases op with
    | Set i v c => simp [Op.isPrimarySetByName] at hop
    | SetByName fs name v c =>
      cases fs with
      | none => simp [Op.isPrimarySetByName] at hop
      | some f =>
        have hc : c = false := by simpa [Op.isPrimarySetByName] using hop
        subst hc
        obtain ⟨h', r1, b, hset, hlock1⟩ :=
          TRecordSet.SetByName_primary_lockstep r f name v hinv hlock hw
        have hinv1 : Inv r1 :=
          (TRecordSet.SetByName_inv r r1 (some f) h' name v false b hset).1 hinv
        have hl1 : LenOk r1 :=
          TRecordSet.SetByName_lenOk r r1 (some f) h' name v false b hinv hw hset
        have happ : Op.apply r (Op.SetByName (some f) name v false) = some r1 := by
          simp [Op.apply, hset]
        obtain ⟨r', hrun, hinv', hlock', hw', hl'⟩ := ih r1 hinv1 hlock1 (fun _ => hl1) hrest
        refine ⟨r', ?_, hinv', hlock', hw', fun _ => ?_⟩
        · unfold runOps
          simp only [happ]
          exact hrun
        · by_cases hops : ops = []
          · subst hops
            simp [runOps] at hrun
            subst hrun
            exact hl1
          · exact hl' hops

/-- Claim C18. From `NewRecordSet` with no argument, an empty mapping or a non-empty
mapping, every non-empty sequence of calls `SetByName(fs, name, value, false)` (with
handles that are not nil) runs to its end, and on the record it leaves
`Length() == len(Fields())`, `len(Fields())` is the number of primary values, and
the name at every position `i` of `Fields()` has `FieldIndex` `i` and is read by
`GetByName(name, false)` as the primary value at position `i`. -/
theorem primary_writes_aligned (record : List (GoMap Value)) (ops : List Op)
    (hwf : WFArgs record) (hne : ops ≠ [])
    (hall : ops.all Op.isPrimarySetByName = true) :
    ∃ r, runOps (NewRecordSet record) ops = some r ∧
      r.Length = (r.Fields.length : Int) ∧ r.Fields.length = r.values.length ∧
      ∀ (i : Nat) (name : String), r.Fields[i]? = some name →
        r.FieldIndex name = (i : Int) ∧ r.GetByName name false = r.values[i]? ∧
        (r.values[i]?).isSome := by
  obtain ⟨r, hrun, hinv, hlock, _, hl⟩ := runOps_primary ops (NewRecordSet record)
    (NewRecordSet_inv record) (NewRecordSet_lockstep record hwf)
    (NewRecordSet_weakLenOk record) hall
  have hlen : r.length = r.values.length := hl hne
  have hlanes := hinv.lanes
  rw [hlock.classic] at hlanes
  simp only [List.length_nil, Nat.add_zero] at hlanes
  refine ⟨r, hrun, ?_, hlanes, ?_⟩
  · simp only [TRecordSet.Length, TRecordSet.Fields]
    rw [hlen, hlanes]
  · intro i name hi
    simp only [TRecordSet.Fields] at hi
    have hlt : i < r.fields.length := by
      by_contra hge
      rw [List.getElem?_eq_none (by omega)] at hi
      cases hi
    have hname : r.fields.getD i "" = name := by
      rw [List.getD_eq_getElem?_getD, hi]; rfl
    have hpos := hlock.position i hlt
    rw [hname] at hpos
    have hv : i < r.values.length := by omega
    refine ⟨?_, ?_, ?_⟩
    · simp [TRecordSet.FieldIndex, hpos]
    · unfold TRecordSet.GetByName TRecordSet.Get
      simp only [hpos]
      have : ¬ ((i : Int) ≥ r.length) := by rw [hlen]; omega
      rw [if_neg this, sliceGet_natCast]
    · rw [List.getElem?_eq_getElem hv]; rfl

/-- Claim C18 from the empty mapping: `a`, then `b`, then `a` again. -/
theorem primary_writes_aligned_witness :
    WFArgs [[]] ∧
    [Op.SetByName (some ⟨"a", false⟩) "a" (Value.int 1) false,
     Op.SetByName (some ⟨"b", false⟩) "b" (Value.int 2) false,
     Op.SetByName (some ⟨"a", false⟩) "a" (Value.int 3) false] ≠ [] ∧
    (∃ r, runOps (NewRecordSet [[]])
        [Op.SetByName (some ⟨"a", false⟩) "a" (Value.int 1) false,
         Op.SetByName (some ⟨"b", false⟩) "b" (Value.int 2) false,
         Op.SetByName (some ⟨"a", false⟩) "a" (Value.int 3) false] = some r ∧
      r.Length = (r.Fields.length : Int) ∧ r.Fields.length = r.values.length ∧
      ∀ (i : Nat) (name : String), r.Fields[i]? = some name →
        r.FieldIndex name = (i : Int) ∧ r.GetByName name false = r.values[i]? ∧
        (r.values[i]?).isSome) :=
  ⟨by intro m hm; cases hm; decide, by simp,
   primary_writes_aligned [[]]
     [Op.SetByName (some ⟨"a", false⟩) "a" (Value.int 1) false,
      Op.SetByName (some ⟨"b", false⟩) "b" (Value.int 2) false,
      Op.SetByName (some ⟨"a", false⟩) "a" (Value.int 3) false]
     (by intro m hm; cases hm; decide) (by simp) (by decide)⟩

/-! ## Merging into a string map -/

/-- The export loop from two starting maps: it returns from both or from neither,
the results agree on the field names, and off the field names each result is its
starting map. -/
theorem TRecordSet.rangeFields_init {β : Type} (conv : Value → β) (values : List Value)
    (fields : List String) (idx : Nat) (m0 m1 out0 : GoMap β)
    (h : TRecordSet.rangeFields conv values idx fields m0 = some out0) :
    ∃ out, TRecordSet.rangeFields conv values idx fields m1 = some out ∧
      (∀ k, k ∈ fields → out.get? k = out0.get? k) ∧
      (∀ k, k ∉ fields → out.get? k = m1.get? k) := by
  induction fields generalizing idx m0 m1 out0 with
  | nil => exact ⟨m1, rfl, by simp, fun _ _ => rfl⟩
  | cons f rest ih =>
    unfold TRecordSet.rangeFields at h
    cases hv : sliceGet values idx with
    | none => rw [hv] at h; cases h
    | some v =>
      rw [hv] at h
      simp only at h
      obtain ⟨out, h1, h2, h3⟩ := ih (idx + 1) (m0.set f (conv v)) (m1.set f (conv v)) out0 h
      obtain ⟨out', h1', _, h3'⟩ :=
        ih (idx + 1) (m0.set f (conv v)) (m0.set f (conv v)) out0 h
      have hout : out' = out0 := by
        rw [h] at h1'
        exact (Option.some.inj h1').symm
      subst hout
      refine ⟨out, ?_, ?_, ?_⟩
      · unfold TRecordSet.rangeFields
        rw [hv]
        exact h1
      · intro k hk
        by_cases hr : k ∈ rest
        · exact h2 k hr
        · have hkf : k = f := by
            have : k = f ∨ k ∈ rest := by simpa using hk
            exact this.resolve_right hr
          rw [h3 k hr, h3' k hr, GoMap.get?_set, GoMap.get?_set, if_pos hkf, if_pos hkf]
      · intro k hk
        have hk' : k ≠ f ∧ k ∉ rest := by simpa using hk
        rw [h3 k hk'.2, GoMap.get?_set, if_neg hk'.1]

/-- Claim C15 fails as stated. On the record built from `{a: 1}`, `AsStrMap()`
returns `{a: v}` while `MergeToStrMap(nil)`, on the nil map a caller can supply,
panics at the assignment `target["a"] = ...`. -/
theorem MergeToStrMap_nil_map_counterexample :
    (NewRecordSet [[("a", Value.int 1)]]).AsStrMap (fun _ => "v") = some [("a", "v")] ∧
    (NewRecordSet [[("a", Value.int 1)]]).MergeToStrMap (fun _ => "v") none = none := by
  decide

/-- Claim C15, amended. On a record on which `AsStrMap()` returns, `MergeToStrMap(t)`
on a caller's map `t` that is not nil returns the updated `t`: every name of `Fields()` maps to the
string `AsStrMap()` gives it, every other key keeps the value it has in `t`; and
`MergeToStrMap` on the empty map returns the map of `AsStrMap()`. -/
theorem MergeToStrMap_refines_AsStrMap (Itf2Str : Value → String) (r : TRecordSet)
    (out t : GoMap String) (h : r.AsStrMap Itf2Str = some out) :
    (∃ res, r.MergeToStrMap Itf2Str (some t) = some (some res) ∧
      (∀ k, k ∈ r.Fields → res.get? k = out.get? k) ∧
      (∀ k, k ∉ r.Fields → res.get? k = t.get? k)) ∧
    r.MergeToStrMap Itf2Str (some []) = some (some out) := by
  unfold TRecordSet.AsStrMap at h
  constructor
  · obtain ⟨res, h1, h2, h3⟩ :=
      TRecordSet.rangeFields_init Itf2Str r.values r.fields 0 [] t out h
    exact ⟨res, by simp [TRecordSet.MergeToStrMap, h1], h2, h3⟩
  · simp [TRecordSet.MergeToStrMap, h]

/-- Claim C15, amended, on the record built from `{a: 1}`, merged into the map
`{z: q}`. -/
theorem MergeToStrMap_refines_AsStrMap_witness :
    (NewRecordSet [[("a", Value.int 1)]]).AsStrMap (fun _ => "v") = some [("a", "v")] ∧
    (∃ res, (NewRecordSet [[("a", Value.int 1)]]).MergeToStrMap (fun _ => "v")
        (some [("z", "q")]) = some (some res) ∧
      (∀ k, k ∈ (NewRecordSet [[("a", Value.int 1)]]).Fields →
        res.get? k = GoMap.get? [("a", "v")] k) ∧
      (∀ k, k ∉ (NewRecordSet [[("a", Value.int 1)]]).Fields →
        res.get? k = GoMap.get? [("z", "q")] k)) ∧
    (NewRecordSet [[("a", Value.int 1)]]).MergeToStrMap (fun _ => "v") (some []) =
      some (some [("a", "v")]) :=
  ⟨by decide,
   MergeToStrMap_refines_AsStrMap (fun _ => "v") (NewRecordSet [[("a", Value.int 1)]])
     [("a", "v")] [("z", "q")] (by decide)⟩

/-! ## Projection onto a struct -/

/-- At a position whose selected value is nil the loop goes on to the next field
with the target as it is. -/
theorem AsStruct.loop_nil (u : Utils) (lane : List Value) (idx : Nat) (name : String)
    (rest : List String) (t : Target) (h : sliceGet lane (idx : Int) = some Value.nil) :
    AsStruct.loop u lane idx (name :: rest) t = AsStruct.loop u lane (idx + 1) rest t := by
  conv_lhs => unfold AsStruct.loop
  cases t.get? (u.TitleCasedName name) with
  | none => rfl
  | some m =>
    simp only [h]
    by_cases hc : (!m.CanSet) = true
    · rw [if_pos hc]
    · rw [if_neg hc]
      simp

/-- A member stays as it is through the loop when every field that resolves to it
has a nil selected value. -/
theorem AsStruct.loop_frame (u : Utils) (lane : List Value) (M : String)
    (fields : List String) (idx : Nat) (t : Target)
    (hnil : ∀ (j : Nat) (name : String), fields[j]? = some name →
      u.TitleCasedName name = M → sliceGet lane ((idx + j : Nat) : Int) = some Value.nil) :
    (AsStruct.loop u lane idx fields t).1.get? M = t.get? M := by
  induction fields generalizing idx t with
  | nil => rfl
  | cons name rest ih =>
    have hrest : ∀ (j : Nat) (n : String), rest[j]? = some n →
        u.TitleCasedName n = M → sliceGet lane ((idx + 1 + j : Nat) : Int) = some Value.nil := by
      intro j n hj hn
      have := hnil (j + 1) n (by simpa using hj) hn
      rw [show idx + 1 + j = idx + (j + 1) by omega]
      exact this
    unfold AsStruct.loop
    cases hm : t.get? (u.TitleCasedName name) with
    | none => exact ih (idx + 1) t hrest
    | some m =>
      simp only
      by_cases hc : (!m.CanSet) = true
      · rw [if_pos hc]; exact ih (idx + 1) t hrest
      · rw [if_neg hc]
        cases hv : sliceGet lane (idx : Int) with
        | none => rfl
        | some v =>
          simp only
          by_cases hvn : v = Value.nil
          · rw [if_pos hvn]; exact ih (idx + 1) t hrest
          · rw [if_neg hvn]
            have hne : u.TitleCasedName name ≠ M := by
              intro he
              have := hnil 0 name (by simp) he
              rw [Nat.add_zero, hv] at this
              exact hvn (Option.some.inj this)
            split
            · exact ih (idx + 1) t hrest
            · rename_i w _
              by_cases ha : w.typeOf.assignableTo m.typ = true
              · rw [if_pos ha, ih (idx + 1) _ hrest, GoMap.get?_set, if_neg (Ne.symm hne)]
              · rw [if_neg ha]

theorem GoMap.WF_set {α : Type} (m : GoMap α) (k : String) (v : α) (hm : m.WF) :
    (m.set k v).WF := by
  unfold GoMap.WF GoMap.keys GoMap.set at *
  simp only [List.map_cons, List.nodup_cons]
  constructor
  · intro hmem
    obtain ⟨p, hp, hk⟩ := List.mem_map.1 hmem
    have := (List.mem_filter.1 hp).2
    simp [hk] at this
  · exact List.Nodup.sublist (List.Sublist.map _ (List.filter_sublist _)) hm

/-- A field found in the struct itself is its member of that name. -/
theorem ETarget.FieldByName_direct (ρ : Reflect) (t : ETarget) (name n : String)
    (m : EMember) (h : t.FieldByName ρ name = some (FieldRef.direct n m)) :
    n = name ∧ t.members.get? name = some m := by
  unfold ETarget.FieldByName at h
  cases hg : t.members.get? name with
  | some m' =>
    rw [hg] at h
    simp only [Option.some.injEq, FieldRef.direct.injEq] at h
    exact ⟨h.1.symm, by rw [h.2]⟩
  | none =>
    rw [hg] at h
    simp only at h
    split at h
    · split at h
      · cases h
      · cases h
    · cases h

/-- A promoted field is found in a member that is embedded. -/
theorem ETarget.FieldByName_promoted (ρ : Reflect) (t : ETarget) (name owner n : String)
    (e : EMember) (typ : GoType) (ex : Bool)
    (h : t.FieldByName ρ name = some (FieldRef.promoted owner e n typ ex)) :
    (owner, e) ∈ t.members ∧ e.embedded = true := by
  unfold ETarget.FieldByName at h
  cases hg : t.members.get? name with
  | some m' => rw [hg] at h; cases h
  | none =>
    rw [hg] at h
    simp only at h
    split at h
    · rename_i owner' e' hf
      split at h
      · simp only [Option.some.injEq, FieldRef.promoted.injEq] at h
        obtain ⟨h1, h2, _, _, _⟩ := h
        subst h1 h2
        have hmem : (owner', e') ∈ t.members.filter
            (fun p => p.2.embedded && (ρ.fieldType p.2.typ name).isSome) := by
          rw [hf]; exact List.mem_singleton.2 rfl
        have := List.mem_filter.1 hmem
        refine ⟨this.1, ?_⟩
        have h2 := this.2
        simp only [Bool.and_eq_true] at h2
        exact h2.1
      · cases h
    · cases h

/-- One iteration leaves a member of the struct itself that is not embedded as it
is, unless the field of the iteration resolves to that member and holds a value
that is not nil. -/
theorem AsStruct.bodyE_frame (ρ : Reflect) (u : Utils) (lane : List Value) (idx : Nat)
    (name M : String) (t t' : ETarget) (hwf : t.members.WF)
    (hM : ∀ m, t.members.get? M = some m → m.embedded = false)
    (hnil : u.TitleCasedName name = M → sliceGet lane (idx : Int) = some Value.nil)
    (h : AsStruct.bodyE ρ u lane idx name t = some t') :
    t'.members.get? M = t.members.get? M ∧ t'.members.WF := by
  unfold AsStruct.bodyE at h
  cases hf : t.FieldByName ρ (u.TitleCasedName name) with
  | none => rw [hf] at h; simp only [Option.some.injEq] at h; subst h; exact ⟨rfl, hwf⟩
  | some ref =>
    rw [hf] at h
    simp only at h
    by_cases hc : (!(t.addressable && ref.exported)) = true
    · rw [if_pos hc] at h; simp only [Option.some.injEq] at h; subst h; exact ⟨rfl, hwf⟩
    · rw [if_neg hc] at h
      cases hv : sliceGet lane (idx : Int) with
      | none => rw [hv] at h; cases h
      | some v =>
        rw [hv] at h
        simp only at h
        by_cases hvn : v = Value.nil
        · rw [if_pos hvn] at h; simp only [Option.some.injEq] at h; subst h; exact ⟨rfl, hwf⟩
        · rw [if_neg hvn] at h
          have hne : u.TitleCasedName name ≠ M := by
            intro he
            have := hnil he
            rw [hv] at this
            exact hvn (Option.some.inj this)
          split at h
          · simp only [Option.some.injEq] at h; subst h; exact ⟨rfl, hwf⟩
          · rename_i w _
            by_cases ha : w.typeOf.assignableTo ref.typ = true
            · rw [if_pos ha] at h
              simp only [Option.some.injEq] at h
              subst h
              cases ref with
              | direct n m =>
                obtain ⟨hn, _⟩ := ETarget.FieldByName_direct ρ t _ n m hf
                subst hn
                refine ⟨?_, GoMap.WF_set _ _ _ hwf⟩
                simp only [ETarget.assign, GoMap.get?_set]
                rw [if_neg (Ne.symm hne)]
              | promoted owner e n typ ex =>
                obtain ⟨hmem, hemb⟩ := ETarget.FieldByName_promoted ρ t _ owner n e typ ex hf
                have hget := GoMap.get?_of_mem t.members hwf owner e hmem
                have hown : M ≠ owner := by
                  intro he
                  rw [← he] at hget
                  have := hM e hget
                  rw [hemb] at this
                  cases this
                refine ⟨?_, GoMap.WF_set _ _ _ hwf⟩
                simp only [ETarget.assign, GoMap.get?_set]
                rw [if_neg hown]
            · rw [if_neg ha] at h; cases h

/-- A member of the struct itself that is not embedded stays as it is through the
loop when every field that resolves to it has a nil selected value. -/
theorem AsStruct.loopE_frame (ρ : Reflect) (u : Utils) (lane : List Value) (M : String)
    (fields : List String) (idx : Nat) (t : ETarget) (hwf : t.members.WF)
    (hM : ∀ m, t.members.get? M = some m → m.embedded = false)
    (hnil : ∀ (j : Nat) (name : String), fields[j]? = some name →
      u.TitleCasedName name = M → sliceGet lane ((idx + j : Nat) : Int) = some Value.nil) :
    (AsStruct.loopE ρ u lane idx fields t).1.members.get? M = t.members.get? M := by
  induction fields generalizing idx t with
  | nil => rfl
  | cons name rest ih =>
    have hrest : ∀ (j : Nat) (n : String), rest[j]? = some n →
        u.TitleCasedName n = M → sliceGet lane ((idx + 1 + j : Nat) : Int) = some Value.nil := by
      intro j n hj hn
      have := hnil (j + 1) n (by simpa using hj) hn
      rw [show idx + 1 + j = idx + (j + 1) by omega]
      exact this
    conv_lhs => unfold AsStruct.loopE
    cases hb : AsStruct.bodyE ρ u lane idx name t with
    | none => rfl
    | some t' =>
      simp only
      obtain ⟨hget, hwf'⟩ := AsStruct.bodyE_frame ρ u lane idx name M t t' hwf hM
        (fun he => by simpa using hnil 0 name (by simp) he) hb
      rw [ih (idx + 1) t' hwf' (by rw [hget]; exact hM) hrest, hget]

/-- The member of a target without embedded structs, as a member of a target that
may embed structs. -/
theorem Target.embedless_get? (t : Target) (k : String) :
    t.embedless.members.get? k =
      (t.get? k).map (fun m => ({ typ := m.typ, exported := m.CanSet, embedded := false,
                                   value := m.value } : EMember)) := by
  unfold Target.embedless
  induction t with
  | nil => rfl
  | cons p t ih =>
    simp only [List.map_cons]
    rw [GoMap.get?_cons, GoMap.get?_cons]
    by_cases h : k = p.1
    · simp [h]
    · simp only [h, if_false]
      exact ih

theorem Target.embedless_set (t : Target) (k : String) (m : Member) :
    Target.embedless (GoMap.set t k m) =
      { t.embedless with
        members := t.embedless.members.set k
          { typ := m.typ, exported := m.CanSet, embedded := false, value := m.value } } := by
  unfold Target.embedless GoMap.set
  simp only [List.map_cons, List.filter_map]
  rfl

/-- On a target without embedded structs `FieldByName` finds the member of that name
and nothing else, whatever the embedded structs of other targets look like. -/
theorem Target.embedless_FieldByName (ρ : Reflect) (t : Target) (k : String) :
    t.embedless.FieldByName ρ k =
      (t.get? k).map (fun m => FieldRef.direct k
        { typ := m.typ, exported := m.CanSet, embedded := false, value := m.value }) := by
  unfold ETarget.FieldByName
  rw [Target.embedless_get?]
  cases t.get? k with
  | some m => rfl
  | none =>
    have hfil : t.embedless.members.filter
        (fun p => p.2.embedded && (ρ.fieldType p.2.typ k).isSome) = [] := by
      rw [List.filter_eq_nil_iff]
      intro p hp
      unfold Target.embedless at hp
      obtain ⟨q, _, hq⟩ := List.mem_map.1 hp
      subst hq
      simp
    simp only [Option.map_none', hfil]

/-- The loop on a target without embedded structs is the loop on a target that may
embed structs, run on a target that embeds none. -/
theorem AsStruct.loopE_embedless (ρ : Reflect) (u : Utils) (lane : List Value)
    (fields : List String) (idx : Nat) (t : Target) :
    AsStruct.loopE ρ u lane idx fields t.embedless =
      ((AsStruct.loop u lane idx fields t).1.embedless,
       (AsStruct.loop u lane idx fields t).2) := by
  induction fields generalizing idx t with
  | nil => rfl
  | cons name rest ih =>
    unfold AsStruct.loopE AsStruct.loop AsStruct.bodyE
    rw [Target.embedless_FieldByName]
    cases hm : t.get? (u.TitleCasedName name) with
    | none => simp only [Option.map_none']; exact ih (idx + 1) t
    | some m =>
      simp only [Option.map_some', FieldRef.exported, FieldRef.typ]
      have hadd : t.embedless.addressable = true := rfl
      rw [hadd, Bool.true_and]
      by_cases hc : (!m.CanSet) = true
      · rw [if_pos hc, if_pos hc]; exact ih (idx + 1) t
      · rw [if_neg hc, if_neg hc]
        cases hv : sliceGet lane (idx : Int) with
        | none => rfl
        | some v =>
          simp only
          by_cases hvn : v = Value.nil
          · rw [if_pos hvn, if_pos hvn]; exact ih (idx + 1) t
          · rw [if_neg hvn, if_neg hvn]
            cases hco : (if m.typ.kind ≠ v.typeOf.kind then AsStruct.coerce u m.typ v
                else some v) with
            | none => exact ih (idx + 1) t
            | some w =>
              simp only
              by_cases ha : w.typeOf.assignableTo m.typ = true
              · rw [if_pos ha, if_pos ha]
                simp only
                rw [← ih (idx + 1)]
                congr 1
                rw [Target.embedless_set]
                rfl
              · rw [if_neg ha, if_neg ha]

/-- The method on a target without embedded structs is the method on a target that
may embed structs, called on a target that embeds none. -/
theorem TRecordSet.AsStructE_embedless (ρ : Reflect) (u : Utils) (r : TRecordSet)
    (t : Target) (classic : List Bool) :
    r.AsStructE ρ u t.embedless classic =
      ((r.AsStruct u t classic).1.embedless, (r.AsStruct u t classic).2) :=
  AsStruct.loopE_embedless ρ u _ r.fields 0 t

/-- Claim C12 fails as stated. The target is `struct { Inner }` with `Inner.Age == 7`.
From the record `{inner: Inner{99}, age: nil}` `AsStruct` returns and `Age` reads 99,
although the value selected for the field `age` is nil; from the record
`{inner: nil, age: 30}` `AsStruct` returns and the member `Inner` holds `Inner{30}`,
although the value selected for the field `inner` is nil. -/
theorem AsStruct_nil_skip_counterexample :
    sampleEmbedded.read sampleReflect "Age" = some (Value.int 7) ∧
    sliceGet ((NewRecordSet [[("inner", Value.other innerType 99),
      ("age", Value.nil)]]).selectedLane []) 1 = some Value.nil ∧
    ((NewRecordSet [[("inner", Value.other innerType 99), ("age", Value.nil)]]).AsStructE
      sampleReflect sampleUtils sampleEmbedded []).2 = true ∧
    ((NewRecordSet [[("inner", Value.other innerType 99), ("age", Value.nil)]]).AsStructE
      sampleReflect sampleUtils sampleEmbedded []).1.read sampleReflect "Age" =
      some (Value.int 99) ∧
    sampleEmbedded.read sampleReflect "Inner" = some (Value.other innerType 7) ∧
    sliceGet ((NewRecordSet [[("inner", Value.nil),
      ("age", Value.int 30)]]).selectedLane []) 0 = some Value.nil ∧
    ((NewRecordSet [[("inner", Value.nil), ("age", Value.int 30)]]).AsStructE
      sampleReflect sampleUtils sampleEmbedded []).2 = true ∧
    ((NewRecordSet [[("inner", Value.nil), ("age", Value.int 30)]]).AsStructE
      sampleReflect sampleUtils sampleEmbedded []).1.read sampleReflect "Inner" =
      some (Value.other innerType 30) := by
  decide

/-- An iteration whose selected value is nil hands the target on untouched. -/
theorem AsStruct.bodyE_nil (ρ : Reflect) (u : Utils) (lane : List Value) (idx : Nat)
    (name : String) (t : ETarget) (h : sliceGet lane (idx : Int) = some Value.nil) :
    AsStruct.bodyE ρ u lane idx name t = some t := by
  unfold AsStruct.bodyE
  cases t.FieldByName ρ (u.TitleCasedName name) with
  | none => rfl
  | some ref =>
    simp only [h]
    by_cases hc : (!(t.addressable && ref.exported)) = true
    · rw [if_pos hc]
    · rw [if_neg hc]; simp

/-- An iteration whose selected value is not nil and has the type of the settable
member of the struct itself that the field resolves to stores the value there. -/
theorem AsStruct.bodyE_assign (ρ : Reflect) (u : Utils) (lane : List Value) (idx : Nat)
    (name : String) (t : ETarget) (m : EMember) (v : Value)
    (hm : t.members.get? (u.TitleCasedName name) = some m)
    (hc : (t.addressable && m.exported) = true)
    (hv : sliceGet lane (idx : Int) = some v) (hvn : v ≠ Value.nil)
    (hty : v.typeOf = m.typ) :
    AsStruct.bodyE ρ u lane idx name t =
      some (t.assign ρ (FieldRef.direct (u.TitleCasedName name) m) v) := by
  have hf : t.FieldByName ρ (u.TitleCasedName name) =
      some (FieldRef.direct (u.TitleCasedName name) m) := by
    unfold ETarget.FieldByName
    rw [hm]
  unfold AsStruct.bodyE
  simp only [hf, hv, FieldRef.exported, FieldRef.typ]
  have hc' : ¬ (!(t.addressable && m.exported)) = true := by simp [hc]
  rw [if_neg hc', if_neg hvn]
  have hk : ¬ (m.typ.kind ≠ v.typeOf.kind) := by rw [hty]; simp
  rw [if_neg hk]
  simp only
  have ha : v.typeOf.assignableTo m.typ = true := by
    rw [hty]; simp [GoType.assignableTo]
  rw [if_pos ha]

/-- Claim C12, amended. For every record, every target struct (with or without
embedded structs) and either lane selection: a member of the target struct itself
that is not an embedded struct is the same after `AsStruct` as before, whether the
call returned or panicked, when the selected value of every field that title-cases
to its name is nil; at a field whose selected value is nil the loop goes on to the
next field with the target untouched; and at a field whose selected value is not nil
and has the type of the settable member it resolves to, the loop goes on with that
value stored in the member and every other member as it was. -/
theorem AsStruct_nil_skip (ρ : Reflect) (u : Utils) (r : TRecordSet) (target : ETarget)
    (classic : List Bool) (M : String) (hwf : target.members.WF)
    (hM : ∀ m, target.members.get? M = some m → m.embedded = false)
    (hnil : ∀ (i : Nat) (name : String), r.Fields[i]? = some name →
      u.TitleCasedName name = M →
      sliceGet (r.selectedLane classic) (i : Int) = some Value.nil) :
    (r.AsStructE ρ u target classic).1.members.get? M = target.members.get? M ∧
    (∀ (idx : Nat) (name : String) (rest : List String) (t : ETarget),
      sliceGet (r.selectedLane classic) (idx : Int) = some Value.nil →
      AsStruct.loopE ρ u (r.selectedLane classic) idx (name :: rest) t =
        AsStruct.loopE ρ u (r.selectedLane classic) (idx + 1) rest t) ∧
    (∀ (idx : Nat) (name : String) (rest : List String) (t : ETarget) (m : EMember)
      (v : Value),
      t.members.get? (u.TitleCasedName name) = some m →
      (t.addressable && m.exported) = true →
      sliceGet (r.selectedLane classic) (idx : Int) = some v → v ≠ Value.nil →
      v.typeOf = m.typ →
      ∃ t', AsStruct.loopE ρ u (r.selectedLane classic) idx (name :: rest) t =
          AsStruct.loopE ρ u (r.selectedLane classic) (idx + 1) rest t' ∧
        t'.addressable = t.addressable ∧
        t'.members.get? (u.TitleCasedName name) = some { m with value := v } ∧
        ∀ k, k ≠ u.TitleCasedName name → t'.members.get? k = t.members.get? k) := by
  refine ⟨?_, ?_, ?_⟩
  · unfold TRecordSet.AsStructE
    apply AsStruct.loopE_frame ρ u _ M _ 0 target hwf hM
    intro j name hj hn
    rw [Nat.zero_add]
    exact hnil j name hj hn
  · intro idx name rest t h
    conv_lhs => unfold AsStruct.loopE
    rw [AsStruct.bodyE_nil ρ u _ idx name t h]
  · intro idx name rest t m v hm hc hv hvn hty
    refine ⟨t.assign ρ (FieldRef.direct (u.TitleCasedName name) m) v, ?_, rfl, ?_, ?_⟩
    · conv_lhs => unfold AsStruct.loopE
      rw [AsStruct.bodyE_assign ρ u _ idx name t m v hm hc hv hvn hty]
    · simp only [ETarget.assign, GoMap.get?_set, if_true]
    · intro k hk
      simp only [ETarget.assign, GoMap.get?_set]
      rw [if_neg hk]

/-- Claim C12, amended, on the record `{age: nil, name: "bob", inner: Inner{99}}` and
the target `struct { Inner; Age int; Name string }` with `Age == 7`: the member `Age`
keeps 7 and `Name` receives `bob`. -/
theorem AsStruct_nil_skip_witness :
    sampleLayered.members.WF ∧
    (∀ m, sampleLayered.members.get? "Age" = some m → m.embedded = false) ∧
    (∀ (i : Nat) (name : String),
      (NewRecordSet [[("age", Value.nil), ("name", Value.str "bob"),
        ("inner", Value.other innerType 99)]]).Fields[i]? = some name →
      sampleUtils.TitleCasedName name = "Age" →
      sliceGet ((NewRecordSet [[("age", Value.nil), ("name", Value.str "bob"),
        ("inner", Value.other innerType 99)]]).selectedLane []) (i : Int) = some Value.nil) ∧
    ((NewRecordSet [[("age", Value.nil), ("name", Value.str "bob"),
        ("inner", Value.other innerType 99)]]).AsStructE sampleReflect sampleUtils
        sampleLayered []).1.members.get? "Name" =
      some ⟨GoType.string, true, false, Value.str "bob"⟩ ∧
    ((NewRecordSet [[("age", Value.nil), ("name", Value.str "bob"),
        ("inner", Value.other innerType 99)]]).AsStructE sampleReflect sampleUtils
        sampleLayered []).1.members.get? "Age" = sampleLayered.members.get? "Age" :=
  have hM : ∀ m, sampleLayered.members.get? "Age" = some m → m.embedded = false := by
    intro m hm
    have h2 : sampleLayered.members.get? "Age" =
        some ⟨GoType.int, true, false, Value.int 7⟩ := by decide
    rw [h2] at hm
    rw [← Option.some.inj hm]
  have hnil : ∀ (i : Nat) (name : String),
      (NewRecordSet [[("age", Value.nil), ("name", Value.str "bob"),
        ("inner", Value.other innerType 99)]]).Fields[i]? = some name →
      sampleUtils.TitleCasedName name = "Age" →
      sliceGet ((NewRecordSet [[("age", Value.nil), ("name", Value.str "bob"),
        ("inner", Value.other innerType 99)]]).selectedLane []) (i : Int) = some Value.nil := by
    intro i name hi hn
    have hF : (NewRecordSet [[("age", Value.nil), ("name", Value.str "bob"),
        ("inner", Value.other innerType 99)]]).Fields = ["age", "name", "inner"] := by
      decide
    rw [hF] at hi
    match i, hi with
    | 0, _ => decide
    | 1, hi =>
      have : name = "name" := by simpa using hi.symm
      subst this
      revert hn
      decide
    | 2, hi =>
      have : name = "inner" := by simpa using hi.symm
      subst this
      revert hn
      decide
    | (j + 3), hi => simp at hi
  ⟨by decide, hM, hnil, by decide,
   (AsStruct_nil_skip sampleReflect sampleUtils _ sampleLayered [] "Age"
      (by decide) hM hnil).1⟩

/-- Claim C13, at a member `Age int`: with the field `age` holding the string `30`
or a `float64`, the kinds differ, the value becomes the `int64` of `Itf2Int64`, and
`lFieldValue.Set` panics because `int64` is not assignable to `int`; the member
keeps its value. Only a member of type `int64` receives the conversion. -/
theorem AsStruct_int_member_panics (u : Utils) (tag : Nat) :
    (NewRecordSet [[("age", Value.str "30")]]).AsStruct u
        [(u.TitleCasedName "age", ⟨GoType.int, true, Value.int 0⟩)] [] =
      ([(u.TitleCasedName "age", ⟨GoType.int, true, Value.int 0⟩)], false) ∧
    (NewRecordSet [[("age", Value.other GoType.float64 tag)]]).AsStruct u
        [(u.TitleCasedName "age", ⟨GoType.int, true, Value.int 0⟩)] [] =
      ([(u.TitleCasedName "age", ⟨GoType.int, true, Value.int 0⟩)], false) ∧
    (NewRecordSet [[("age", Value.str "30")]]).AsStruct u
        [(u.TitleCasedName "age", ⟨GoType.int64, true, Value.int64 0⟩)] [] =
      ([(u.TitleCasedName "age",
          ⟨GoType.int64, true, Value.int64 (u.Itf2Int64 (Value.str "30"))⟩)], true) := by
  have h1 : ∀ v, (NewRecordSet [[("age", v)]]).fields = ["age"] := fun _ => rfl
  have h2 : ∀ v, (NewRecordSet [[("age", v)]]).values = [v] := fun _ => rfl
  refine ⟨?_, ?_, ?_⟩ <;>
    simp [TRecordSet.AsStruct, TRecordSet.selectedLane, h1, h2, AsStruct.loop, GoMap.get?_cons,
      sliceGet, AsStruct.coerce, Value.typeOf, GoType.int, GoType.int64, GoType.string,
      GoType.float64, GoType.basic, GoType.assignableTo, GoMap.set]

/-- Claim C14, on the classic lane and at a struct member: on the record built from
`{a: 1}`, whose classic lane is empty, `AsStruct(target, true)` panics at
`self.ClassicValues[0]`; and `AsStruct(target)` into a member of a struct type that
is not convertible to `time.Time` leaves the `switch` with the value unconverted and
panics in `lFieldValue.Set`. -/
theorem AsStruct_panics (u : Utils) :
    (NewRecordSet [[("a", Value.int 1)]]).ClassicValues = [] ∧
    (NewRecordSet [[("a", Value.int 1)]]).AsStruct u
        [(u.TitleCasedName "a", ⟨GoType.int, true, Value.int 0⟩)] [true] =
      ([(u.TitleCasedName "a", ⟨GoType.int, true, Value.int 0⟩)], false) ∧
    (NewRecordSet [[("a", Value.int 1)]]).AsStruct u
        [(u.TitleCasedName "a",
          ⟨⟨"main.Inner", Kind.Struct, true, "struct main.Inner"⟩, true, Value.nil⟩)] [] =
      ([(u.TitleCasedName "a",
          ⟨⟨"main.Inner", Kind.Struct, true, "struct main.Inner"⟩, true, Value.nil⟩)], false) := by
  have h1 : (NewRecordSet [[("a", Value.int 1)]]).fields = ["a"] := rfl
  have h2 : (NewRecordSet [[("a", Value.int 1)]]).values = [Value.int 1] := rfl
  have h3 : (NewRecordSet [[("a", Value.int 1)]]).ClassicValues = [] := rfl
  refine ⟨h3, ?_, ?_⟩ <;>
    simp [TRecordSet.AsStruct, TRecordSet.selectedLane, h1, h2, h3, AsStruct.loop,
      GoMap.get?_cons, sliceGet, AsStruct.coerce, Value.typeOf, GoType.int, GoType.time,
      GoType.basic, GoType.assignableTo, GoType.convertibleToTime, GoMap.set]

end Dataset
